import Mathlib

/-!
A shallow embedding of `main.go` of go-global-var-finder.

The program enumerates the `.go` files under a directory, collects the names of
the top-level `var` declarations of every file (`findGlobalVariables`), counts
for each collected name the identifier nodes of every file that carry this name
and are not classified by `isSubjectOfDeclaration` (`getCount`), sorts the
records by descending count and prints them.

The program calls four libraries that are not part of the repository.  They
are represented as follows.

* `go/ast`: the syntax tree is the data the program traverses.  `Ident`,
  `Object`, `ObjKind`, `ValueSpec`, `GenDecl`, `FuncDecl`, `File` mirror the
  fields of the Go types the program reads; everything below a declaration
  (expressions, statements, types, field lists) is a labelled rose tree `Node`,
  whose children are listed in the order `ast.Walk` visits them.  `Walk` and
  `Inspect` follow `ast.Walk` and `ast.Inspect`.
* `go/parser`, `doublestar` and `sort`: fields `ParseFile`, `Glob` and `Sort_` of
  the record `Lib`, a parameter of every function that calls them.  Reading a
  file is taken to be repeatable: `ParseFile` is a function of the path.  The
  contract of `sort.Sort` is stated on the methods `Len`, `Less` and `Swap` of
  `recordSlice`, and `sort.Sort_` is the library's insertion sort run through
  these methods.
* `pterm`: `printRanking` returns the table data it hands to the renderer.

Go's `(value, error)` results are pairs `α × Option Error`; a `panic` is the
`Except.error` case of `Except PanicValue`.  Go's `int` is `Int`: the counters
are incremented once per identifier node of a tree held in memory and summed
over the files of one directory, so they stay far below `2^63`.

A Go name that is a Lean keyword gets a trailing underscore (`Type_`,
`variable_`, `variables_`, `Sort_`).
-/

namespace GoGlobalVarFinder

/-! ## `go/token`, `go/ast` -/

/-- The tokens a `GenDecl` can carry in `Tok` (`go/token`). -/
inductive Token where
  | IMPORT
  | CONST
  | TYPE
  | VAR
  deriving DecidableEq, Repr

/-- Kinds `ast.ObjKind` of a resolved object. -/
inductive ObjKind where
  | Bad
  | Pkg
  | Con
  | Typ
  | Var
  | Fun
  | Lbl
  deriving DecidableEq, Repr

/-- The node an `ast.Object` points to in its `Decl` field: the "corresponding
Field, XxxSpec, FuncDecl, LabeledStmt, AssignStmt, Scope" of the `go/ast`
documentation.  Only whether `Decl` is nil is read by the program. -/
inductive DeclNode where
  | Field
  | ImportSpec
  | ValueSpec
  | TypeSpec
  | FuncDecl
  | LabeledStmt
  | AssignStmt
  | Scope
  deriving DecidableEq, Repr

/-- The type `ast.Object`: `Decl = none` is Go's `nil`. -/
structure Object where
  Kind : ObjKind
  Name : String
  Decl : Option DeclNode
  deriving DecidableEq, Repr

/-- The type `ast.Ident`: `Obj = none` is Go's `nil` (an identifier the parser
did not resolve). -/
structure Ident where
  Name : String
  Obj : Option Object
  deriving DecidableEq, Repr

/-- Syntax below the declarations: an identifier, or any other node
(`BasicLit`, `BinaryExpr`, `BlockStmt`, `FieldList`, ...) with its Go type name
and its children in the order `ast.Walk` visits them. -/
inductive Node where
  | Ident (id : Ident)
  | Other (kind : String) (children : List Node)
  deriving Repr

/-- The type `ast.ValueSpec` (constant or variable declaration). -/
structure ValueSpec where
  Names : List Ident
  Type_ : Option Node
  Values : List Node
  deriving Repr

/-- The type `ast.ImportSpec`; `Path` is a `BasicLit`. -/
structure ImportSpec where
  Name : Option Ident
  Path : String
  deriving Repr

/-- The type `ast.TypeSpec`; `TypeParams` is the `FieldList` of the type
parameters of a generic type, nil otherwise. -/
structure TypeSpec where
  Name : Ident
  TypeParams : Option Node
  Type_ : Node
  deriving Repr

/-- The interface `ast.Spec` with its three implementations. -/
inductive Spec where
  | ImportSpec (s : ImportSpec)
  | ValueSpec (s : ValueSpec)
  | TypeSpec (s : TypeSpec)
  deriving Repr

/-- The type `ast.GenDecl`. -/
structure GenDecl where
  Tok : Token
  Specs : List Spec
  deriving Repr

/-- The type `ast.FuncDecl`: `Recv` and `Type` are a `FieldList` and a
`FuncType`, `Body` a `BlockStmt`; `Type_` is the Go field `Type`. -/
structure FuncDecl where
  Recv : Option Node
  Name : Ident
  Type_ : Node
  Body : Option Node
  deriving Repr

/-- The interface `ast.Decl` with its three implementations. -/
inductive Decl where
  | BadDecl
  | GenDecl (d : GenDecl)
  | FuncDecl (d : FuncDecl)
  deriving Repr

/-- The type `ast.File`: the package clause name and the top-level
declarations.  (With parser mode 0 no comment is attached to the tree.) -/
structure File where
  Name : Ident
  Decls : List Decl
  deriving Repr

/-! ### `ast.Walk`: the children of the typed nodes -/

/-- Children of a `ValueSpec` in `ast.Walk` order: Names, Type, Values. -/
def ValueSpec.node (s : ValueSpec) : Node :=
  .Other "ValueSpec" (s.Names.map Node.Ident ++ s.Type_.toList ++ s.Values)

/-- Children of an `ImportSpec` in `ast.Walk` order: Name, Path. -/
def ImportSpec.node (s : ImportSpec) : Node :=
  .Other "ImportSpec" ((s.Name.map Node.Ident).toList ++ [.Other "BasicLit" []])

/-- Children of a `TypeSpec` in `ast.Walk` order: Name, TypeParams, Type. -/
def TypeSpec.node (s : TypeSpec) : Node :=
  .Other "TypeSpec" (.Ident s.Name :: s.TypeParams.toList ++ [s.Type_])

/-- A `Spec` as a node. -/
def Spec.node : Spec → Node
  | .ImportSpec s => s.node
  | .ValueSpec s => s.node
  | .TypeSpec s => s.node

/-- Children of a `GenDecl` in `ast.Walk` order: the Specs. -/
def GenDecl.node (d : GenDecl) : Node :=
  .Other "GenDecl" (d.Specs.map Spec.node)

/-- Children of a `FuncDecl` in `ast.Walk` order: Recv, Name, Type, Body. -/
def FuncDecl.node (d : FuncDecl) : Node :=
  .Other "FuncDecl" (d.Recv.toList ++ [.Ident d.Name, d.Type_] ++ d.Body.toList)

/-- A `Decl` as a node; a `BadDecl` has no children. -/
def Decl.node : Decl → Node
  | .BadDecl => .Other "BadDecl" []
  | .GenDecl d => d.node
  | .FuncDecl d => d.node

/-- Children of a `File` in `ast.Walk` order: Name, Decls. -/
def File.node (f : File) : Node :=
  .Other "File" (.Ident f.Name :: f.Decls.map Decl.node)

mutual
/-- The function `ast.Walk` with the visitor `inspector(f)` of `ast.Inspect`:
`f` is called on the node; if it returns true the children are walked and `f`
is called on nil.  The state `σ` is what the closure `f` captures. -/
def Walk {σ : Type} (f : Option Node → σ → Bool × σ) : Node → σ → σ
  | .Ident id, s =>
    match f (some (.Ident id)) s with
    | (true, s1) => (f none s1).2
    | (false, s1) => s1
  | .Other kind children, s =>
    match f (some (.Other kind children)) s with
    | (true, s1) => (f none (walkList f children s1)).2
    | (false, s1) => s1
/-- The loops of `ast.Walk` over the children of a node. -/
def walkList {σ : Type} (f : Option Node → σ → Bool × σ) : List Node → σ → σ
  | [], s => s
  | n :: ns, s => walkList f ns (Walk f n s)
end

/-- The function `ast.Inspect`. -/
def Inspect {σ : Type} (node : Node) (f : Option Node → σ → Bool × σ) (s : σ) : σ :=
  Walk f node s

/-! ## The libraries the program calls -/

/-- A Go `error` value, by its message. -/
abbrev Error := String

/-- What a `panic` carries: the string of `panic("Input -dir")`, the error of
`panic(err)`, or the run-time error of a failed type assertion. -/
inductive PanicValue where
  | str (s : String)
  | err (e : Error)
  | typeAssertion
  deriving DecidableEq, Repr

/-- The type `record` (main.go, lines 15-18). -/
structure record where
  variable_ : String
  count : Int
  deriving DecidableEq, Repr

/-- The type `recordSlice` (main.go, line 20). -/
abbrev recordSlice := List record

/-- The library calls of the program: `doublestar.Glob(pattern)`,
`parser.ParseFile(fset, file, nil, 0)` and `sort.Sort(records)`. -/
structure Lib where
  Glob : String → Except Error (List String)
  ParseFile : String → Except Error File
  Sort_ : recordSlice → recordSlice

/-! ## `main.go` -/

/-- The method `recordSlice.Len` (lines 22-24). -/
def recordSlice.Len (r : recordSlice) : Nat :=
  r.length

/-- The method `recordSlice.Less` (lines 26-28); the indices are in range, as
in every call `sort.Sort` makes. -/
def recordSlice.Less (r : recordSlice) (i j : Nat) (hi : i < r.length) (hj : j < r.length) :
    Bool :=
  decide ((r.get ⟨i, hi⟩).count > (r.get ⟨j, hj⟩).count)

/-- The method `recordSlice.Swap` (lines 30-32). -/
def recordSlice.Swap (r : recordSlice) (i j : Nat) (hi : i < r.length) (hj : j < r.length) :
    recordSlice :=
  (r.set i (r.get ⟨j, hj⟩)).set j (r.get ⟨i, hi⟩)

/-- The function `printRanking` (lines 34-42): the table data handed to
`pterm`, the header row first; `toString` on `Int` is `strconv.Itoa`. -/
def printRanking (records : List record) : List (List String) :=
  records.foldl (fun tableData v => tableData ++ [[v.variable_, toString v.count]])
    [["variable", "count"]]

/-- The function `findGoFiles` (lines 44-50). -/
def findGoFiles (lib : Lib) (path : String) : List String × Option Error :=
  match lib.Glob (path ++ "/**/*.go") with
  | .error err => ([], some err)
  | .ok goFles => (goFles, none)

/-- The function `isSubjectOfDeclaration` (lines 52-60). -/
def isSubjectOfDeclaration (id : Ident) : Bool :=
  match id.Obj with
  | some obj =>
    if obj.Decl ≠ none then
      match obj.Kind with
      | .Var | .Typ | .Fun => true
      | _ => false
    else false
  | none => false

/-- The loop over `vs.Names` (lines 75-77). -/
def findGlobalVariables.names (variables_ : List String) : List Ident → List String
  | [] => variables_
  | name :: rest => findGlobalVariables.names (variables_ ++ [name.Name]) rest

/-- The loop over `d.Specs` (lines 73-78); `spec.(*ast.ValueSpec)` panics on
any other spec. -/
def findGlobalVariables.specs (variables_ : List String) :
    List Spec → Except PanicValue (List String)
  | [] => .ok variables_
  | .ValueSpec vs :: rest =>
    findGlobalVariables.specs (findGlobalVariables.names variables_ vs.Names) rest
  | _ :: _ => .error .typeAssertion

/-- The loop over `f.Decls` (lines 69-81). -/
def findGlobalVariables.decls (variables_ : List String) :
    List Decl → Except PanicValue (List String)
  | [] => .ok variables_
  | .GenDecl d :: rest =>
    if d.Tok = Token.VAR then
      match findGlobalVariables.specs variables_ d.Specs with
      | .ok variables_1 => findGlobalVariables.decls variables_1 rest
      | .error p => .error p
    else findGlobalVariables.decls variables_ rest
  | _ :: rest => findGlobalVariables.decls variables_ rest

/-- The function `findGlobalVariables` (lines 62-83). -/
def findGlobalVariables (lib : Lib) (variables_ : List String) (file : String) :
    Except PanicValue (List String × Option Error) :=
  match lib.ParseFile file with
  | .error err => .ok (variables_, some err)
  | .ok f =>
    match findGlobalVariables.decls variables_ f.Decls with
    | .ok variables_1 => .ok (variables_1, none)
    | .error p => .error p

/-- The closure passed to `ast.Inspect` in `getCount` (lines 95-111); the state
is the captured `counter`. -/
def getCount.visit (variable_ : String) (n : Option Node) (counter : Int) : Bool × Int :=
  match n with
  | some (.Ident id) =>
    if isSubjectOfDeclaration id then (true, counter)
    else if id.Name = variable_ then (true, counter + 1)
    else (true, counter)
  | _ => (true, counter)

/-- The function `getCount` (lines 85-114). -/
def getCount (lib : Lib) (file variable_ : String) : Int × Option Error :=
  match lib.ParseFile file with
  | .error err => (0, some err)
  | .ok f => (Inspect f.node (getCount.visit variable_) 0, none)

/-- The first loop of `main` (lines 132-137). -/
def main.variables (lib : Lib) : List String → List String → Except PanicValue (List String)
  | [], variables_ => .ok variables_
  | file :: rest, variables_ =>
    match findGlobalVariables lib variables_ file with
    | .error p => .error p
    | .ok (_, some err) => .error (.err err)
    | .ok (variables_1, none) => main.variables lib rest variables_1

/-- The inner loop of `main` (lines 141-147). -/
def main.count (lib : Lib) (v : String) : List String → Int → Except PanicValue Int
  | [], count => .ok count
  | file :: rest, count =>
    match getCount lib file v with
    | (_, some err) => .error (.err err)
    | (c, none) => main.count lib v rest (count + c)

/-- The second loop of `main` (lines 139-152). -/
def main.records (lib : Lib) (files : List String) :
    List String → recordSlice → Except PanicValue recordSlice
  | [], records => .ok records
  | v :: rest, records =>
    match main.count lib v files 0 with
    | .error p => .error p
    | .ok count => main.records lib files rest (records ++ [{ variable_ := v, count := count }])

/-- Lines 116-153 of `main`: the slice `records` after `sort.Sort(records)`;
`dir` is the value of the flag `-dir`. -/
def main.ranked (lib : Lib) (dir : String) : Except PanicValue recordSlice :=
  if dir = "" then .error (.str "Input -dir")
  else
    match findGoFiles lib dir with
    | (_, some err) => .error (.err err)
    | (files, none) =>
      match main.variables lib files [] with
      | .error p => .error p
      | .ok variables_ =>
        match main.records lib files variables_ [] with
        | .error p => .error p
        | .ok records => .ok (lib.Sort_ records)

/-- The function `main` (lines 116-155): the table it prints. -/
def main (lib : Lib) (dir : String) : Except PanicValue (List (List String)) :=
  match main.ranked lib dir with
  | .error p => .error p
  | .ok records => .ok (printRanking records)

/-! ## Reference notions for the statements -/

mutual
/-- Every identifier node of a tree, each once, in depth-first order. -/
def Node.idents : Node → List GoGlobalVarFinder.Ident
  | .Ident id => [id]
  | .Other _ children => Node.identsList children
/-- Every identifier node of a list of trees. -/
def Node.identsList : List Node → List GoGlobalVarFinder.Ident
  | [] => []
  | n :: ns => n.idents ++ Node.identsList ns
end

/-- The identifier nodes below an optional field of a node. -/
def Node.identsOpt : Option Node → List GoGlobalVarFinder.Ident
  | none => []
  | some n => n.idents

/-- The identifier nodes of a `ValueSpec`, field by field: the `Names`, those
of `Type` and those of `Values`. -/
def ValueSpec.allIdents (s : ValueSpec) : List Ident :=
  s.Names ++ Node.identsOpt s.Type_ ++ Node.identsList s.Values

/-- The identifier nodes of an `ImportSpec`: its `Name`, if any (`Path` is a
literal). -/
def ImportSpec.allIdents (s : ImportSpec) : List Ident :=
  match s.Name with
  | some name => [name]
  | none => []

/-- The identifier nodes of a `TypeSpec`, field by field: the `Name`, those of
`TypeParams` and those of `Type`. -/
def TypeSpec.allIdents (s : TypeSpec) : List Ident :=
  s.Name :: (Node.identsOpt s.TypeParams ++ s.Type_.idents)

/-- The identifier nodes of a `Spec`. -/
def Spec.allIdents : Spec → List Ident
  | .ImportSpec s => s.allIdents
  | .ValueSpec s => s.allIdents
  | .TypeSpec s => s.allIdents

/-- The identifier nodes of a `FuncDecl`, field by field: those of `Recv`, the
`Name`, those of `Type` and those of `Body`. -/
def FuncDecl.allIdents (d : FuncDecl) : List Ident :=
  Node.identsOpt d.Recv ++ d.Name :: (d.Type_.idents ++ Node.identsOpt d.Body)

/-- The identifier nodes of a `Decl`: those of the `Specs` of a `GenDecl`,
those of a `FuncDecl`, none for a `BadDecl`. -/
def Decl.allIdents : Decl → List Ident
  | .BadDecl => []
  | .GenDecl d => d.Specs.flatMap Spec.allIdents
  | .FuncDecl d => d.allIdents

/-- Every identifier node of a file, each once: the package clause `Name`,
then those of the `Decls` in source order. -/
def File.allIdents (f : File) : List Ident :=
  f.Name :: f.Decls.flatMap Decl.allIdents

/-- The identifiers a spec of a `var` group declares: the `Names` of a
`ValueSpec`. -/
def Spec.varIdents : Spec → List Ident
  | .ValueSpec vs => vs.Names
  | _ => []

/-- The identifiers a top-level declaration declares as variables: those of the
specs of a `GenDecl` with token `VAR`, in source order. -/
def Decl.varIdents : Decl → List Ident
  | .GenDecl d => if d.Tok = Token.VAR then d.Specs.flatMap Spec.varIdents else []
  | _ => []

/-- The declaring identifiers of the top-level `var` declarations of a file, in
source order. -/
def File.globalVarIdents (f : File) : List Ident :=
  f.Decls.flatMap Decl.varIdents

/-- The names of the top-level `var` declarations of a file, in source order,
with repetition. -/
def File.globalVarNames (f : File) : List String :=
  f.globalVarIdents.map Ident.Name

/-- An identifier counts as a usage of a name when `isSubjectOfDeclaration` is
false on it and its `Name` is the name. -/
def isUsage (variable_ : String) (id : Ident) : Bool :=
  !isSubjectOfDeclaration id && decide (id.Name = variable_)

/-- The identifier nodes `getCount` is specified to count for a name: those of
the whole tree that carry the name and are no declaration subject. -/
def File.usages (f : File) (variable_ : String) : List Ident :=
  f.node.idents.filter (isUsage variable_)

/-- The sum over every file of the file set of the count `getCount` returns
for a name. -/
def totalCount (lib : Lib) (files : List String) (variable_ : String) : Int :=
  (files.map fun file => (getCount lib file variable_).1).sum

/-- Whether a top-level declaration is a `GenDecl` with token `VAR`. -/
def Decl.isVarGroup : Decl → Bool
  | .GenDecl d => decide (d.Tok = Token.VAR)
  | _ => false

/-- Shape of the trees `go/parser` builds: a `GenDecl` with token `VAR` holds
only `ValueSpec` entries. -/
def File.VarSpecsAreValueSpecs (f : File) : Prop :=
  ∀ d, Decl.GenDecl d ∈ f.Decls → d.Tok = Token.VAR →
    ∀ s ∈ d.Specs, ∃ vs, s = Spec.ValueSpec vs

/-! ## What `go/parser` leaves in `Ident.Obj`

`ast.Ident.Obj` is the "denoted object; or nil": with mode 0 the parser
resolves identifiers while it builds the tree, at their declaration and at
their uses (`go/parser`: `declare`, `shortVarDecl`, `resolve` and the closing
loop of `parseFile`/`resolveFile`, "resolve global identifiers within the same
file"):

* `declare(decl, data, scope, kind, idents...)` gives each declared identifier
  a fresh object `ast.NewObj(kind, ident.Name)` with `obj.Decl = decl`.  It is
  called with kind `Var` for the names of a `var` spec, of a parameter, result
  or receiver field and of a struct field, with kind `Con` for the names of a
  `const` spec, with `Typ` for a type spec, with `Fun` for a function
  declaration without receiver (other than `init`) and for an interface
  method, with `Lbl` for a label.
* an identifier in use position whose name is found in an enclosing scope of
  the same file, the file's package scope included, gets `ident.Obj = obj`,
  the object of that declaration;
* any other identifier (a name declared in another file or in the universe
  scope, a selector, the package clause name) keeps `Obj == nil`; so does the
  name of a method declaration and of a function `init`, for which the parser
  calls `declare` on no scope ("The scope of an identifier denoting a
  constant, type, variable, or function (but not method) declared at top level
  is the package block").
-/

/-- The identifier `declare` leaves at a binding occurrence. -/
def parser.declare (kind : ObjKind) (decl : DeclNode) (name : String) : Ident :=
  { Name := name, Obj := some { Kind := kind, Name := name, Decl := some decl } }

/-- The identifier `resolve` leaves at a use of an object declared in the same
file. -/
def parser.resolved (obj : Object) : Ident :=
  { Name := obj.Name, Obj := some obj }

/-- An identifier the parser leaves unresolved. -/
def parser.unresolved (name : String) : Ident :=
  { Name := name, Obj := none }

/-- Parser contract on top-level `var` declarations: every declared name is
the identifier `declare` leaves for kind `Var` and the `ValueSpec`. -/
def File.VarsDeclared (f : File) : Prop :=
  ∀ id ∈ f.globalVarIdents, id = parser.declare ObjKind.Var DeclNode.ValueSpec id.Name

/-! ## Package `sort` on the methods of `recordSlice`

`sort.Sort(data)` reads and changes the slice through `data.Len`, `data.Less`
and `data.Swap` only.  Its contract is stated on these three methods; the
insertion sort it runs on a slice of at most 12 elements is translated
below. -/

/-- The slices `sort.Sort` can leave: those reached from the slice it is given
by calls of `Swap` with indices below `Len`. -/
inductive recordSlice.Swaps : recordSlice → recordSlice → Prop where
  | done (r : recordSlice) : recordSlice.Swaps r r
  | swap (r r1 : recordSlice) (i j : Nat) (hi : i < r.Len) (hj : j < r.Len) :
      recordSlice.Swaps (r.Swap i j hi hj) r1 → recordSlice.Swaps r r1

/-- The function `sort.IsSorted` on a `recordSlice`:
`n := data.Len(); for i := n - 1; i > 0; i-- { if data.Less(i, i-1) { return false } }`. -/
def recordSlice.IsSorted (r : recordSlice) : Prop :=
  ∀ i (hi : i + 1 < r.Len), r.Less (i + 1) i hi (Nat.lt_of_succ_lt hi) = false

/-- The contract of `sort.Sort` on a `recordSlice`: the slice it leaves is
reached by calls of `Swap`, and `sort.IsSorted` holds on it. -/
structure Lib.SortOK (lib : Lib) : Prop where
  swaps : ∀ r, recordSlice.Swaps r (lib.Sort_ r)
  sorted : ∀ r, recordSlice.IsSorted (lib.Sort_ r)

/-- The inner loop of `insertionSort(data, 0, n)` of package `sort`:
`for j := i; j > 0 && data.Less(j, j-1); j-- { data.Swap(j, j-1) }`. -/
def sort.insertionSort.inner : (j : Nat) → (data : recordSlice) → j < data.Len → recordSlice
  | 0, data, _ => data
  | j + 1, data, hj =>
    if data.Less (j + 1) j hj (Nat.lt_of_succ_lt hj) then
      sort.insertionSort.inner j (data.Swap (j + 1) j hj (Nat.lt_of_succ_lt hj))
        (by simp only [recordSlice.Len, recordSlice.Swap, List.length_set] at hj ⊢; omega)
    else data

/-- The outer loop of `insertionSort(data, 0, n)`: `for i := 1; i < n; i++`,
with the number of iterations left as fuel. -/
def sort.insertionSort.outer : (fuel : Nat) → (data : recordSlice) → (i : Nat) → recordSlice
  | 0, data, _ => data
  | fuel + 1, data, i =>
    if h : i < data.Len then
      sort.insertionSort.outer fuel (sort.insertionSort.inner i data h) (i + 1)
    else data

/-- The function `insertionSort(data, 0, data.Len())` of package `sort`; the
fuel `data.Len()` covers its `data.Len() - 1` iterations. -/
def sort.insertionSort (data : recordSlice) : recordSlice :=
  sort.insertionSort.outer data.Len data 1

/-- The function `sort.Sort` on a slice of at most 12 elements, where it runs
`insertionSort(data, 0, n)` on the whole slice.  (A longer slice is first
partitioned by the library; `Lib.SortOK` is the contract that covers it.) -/
def sort.Sort_ (data : recordSlice) : recordSlice :=
  sort.insertionSort data

/-! ## Concrete libraries and file sets -/

/-- A file system: the paths under the directory `dir` with their trees. -/
def libOf (files : List (String × File)) : Lib where
  Glob := fun pattern =>
    if pattern = "dir/**/*.go" then .ok (files.map Prod.fst) else .error "no such directory"
  ParseFile := fun file =>
    match files.lookup file with
    | some f => .ok f
    | none => .error "no such file"
  Sort_ := sort.Sort_

/-- A `BasicLit` node. -/
def basicLit : Node := .Other "BasicLit" []

/-- The object of a top-level variable. -/
def varObj (name : String) : Object :=
  { Kind := ObjKind.Var, Name := name, Decl := some DeclNode.ValueSpec }

/-- The tree of the declaration `var name = 1`. -/
def varDecl (name : String) : Decl :=
  .GenDecl { Tok := Token.VAR,
             Specs := [.ValueSpec { Names := [parser.declare ObjKind.Var DeclNode.ValueSpec name],
                                    Type_ := none, Values := [basicLit] }] }

/-- The tree of `func name() { body }`. -/
def funcDecl (name : String) (body : List Node) : Decl :=
  .FuncDecl { Recv := none, Name := parser.declare ObjKind.Fun DeclNode.FuncDecl name,
              Type_ := .Other "FuncType" [.Other "FieldList" []],
              Body := some (.Other "BlockStmt" body) }

/-- Scenario 1, the file `package p; var x = 1`. -/
def scenario1.file : File :=
  { Name := parser.unresolved "p", Decls := [varDecl "x"] }

/-- Scenario 2, the file `package p; var y = 1; func f() { return y + y }`:
both operands are uses of the `y` declared in the same file, so the parser
resolves them to its object. -/
def scenario2.file : File :=
  { Name := parser.unresolved "p",
    Decls := [varDecl "y",
      funcDecl "f" [.Other "ReturnStmt" [.Other "BinaryExpr"
        [.Ident (parser.resolved (varObj "y")), .Ident (parser.resolved (varObj "y"))]]]] }

/-- Scenario 3, file A: `package p; var z = 0`. -/
def scenario3.fileA : File :=
  { Name := parser.unresolved "p", Decls := [varDecl "z"] }

/-- The statement `z = z + 1` in a file that does not declare `z`: both
occurrences of `z` stay unresolved. -/
def scenario3.stmt : Node :=
  .Other "AssignStmt" [.Ident (parser.unresolved "z"),
    .Other "BinaryExpr" [.Ident (parser.unresolved "z"), basicLit]]

/-- Scenario 3, file B:
`package p; func g() { z = z + 1; z = z + 1; z = z + 1 }`. -/
def scenario3.fileB : File :=
  { Name := parser.unresolved "p",
    Decls := [funcDecl "g" [scenario3.stmt, scenario3.stmt, scenario3.stmt]] }

/-- The file set of scenario 1. -/
def scenario1.lib : Lib :=
  libOf [("dir/a.go", scenario1.file)]

/-- The file set of scenario 2. -/
def scenario2.lib : Lib :=
  libOf [("dir/a.go", scenario2.file)]

/-- The file set of scenario 3. -/
def scenario3.lib : Lib :=
  libOf [("dir/a.go", scenario3.fileA), ("dir/b.go", scenario3.fileB)]

/-- The tree of `func f(x int) {}`: the parameter name is declared with kind
`Var` and its `Field`. -/
def shadowing.paramFunc : Decl :=
  .FuncDecl { Recv := none
              Name := parser.declare ObjKind.Fun DeclNode.FuncDecl "f"
              Type_ := .Other "FuncType" [.Other "FieldList" [.Other "Field"
                [.Ident (parser.declare ObjKind.Var DeclNode.Field "x"),
                 .Ident (parser.unresolved "int")]]]
              Body := some (.Other "BlockStmt" []) }

/-- A file whose functions each bind the name `x` anew:
`package p; var x = 1; func f(x int) {}; func g() { x := 2 };
func h() { type x int }`. -/
def shadowing.file : File :=
  { Name := parser.unresolved "p",
    Decls := [varDecl "x", shadowing.paramFunc,
      funcDecl "g" [.Other "AssignStmt"
        [.Ident (parser.declare ObjKind.Var DeclNode.AssignStmt "x"), basicLit]],
      funcDecl "h" [.Other "DeclStmt" [.Other "GenDecl" [.Other "TypeSpec"
        [.Ident (parser.declare ObjKind.Typ DeclNode.TypeSpec "x"),
         .Ident (parser.unresolved "int")]]]]] }

/-- The file set of `shadowing.file`. -/
def shadowing.lib : Lib :=
  libOf [("dir/a.go", shadowing.file)]

/-- The object of a top-level type. -/
def typeObj (name : String) : Object :=
  { Kind := ObjKind.Typ, Name := name, Decl := some DeclNode.TypeSpec }

/-- The tree of `type T int`. -/
def method.typeDecl : Decl :=
  .GenDecl { Tok := Token.TYPE,
             Specs := [.TypeSpec { Name := parser.declare ObjKind.Typ DeclNode.TypeSpec "T",
                                   TypeParams := none,
                                   Type_ := .Ident (parser.unresolved "int") }] }

/-- The tree of the method declaration `func (t T) x() {}`: the receiver name
is declared with kind `Var`, the receiver type is a use of `T`, and the method
name `x` gets no object. -/
def method.funcDecl : Decl :=
  .FuncDecl { Recv := some (.Other "FieldList" [.Other "Field"
                [.Ident (parser.declare ObjKind.Var DeclNode.Field "t"),
                 .Ident (parser.resolved (typeObj "T"))]])
              Name := parser.unresolved "x"
              Type_ := .Other "FuncType" [.Other "FieldList" []]
              Body := some (.Other "BlockStmt" []) }

/-- A file with a method named like its variable:
`package p; var x = 1; type T int; func (t T) x() {}`. -/
def method.file : File :=
  { Name := parser.unresolved "p", Decls := [varDecl "x", method.typeDecl, method.funcDecl] }

/-- The file set of `method.file`. -/
def method.lib : Lib :=
  libOf [("dir/a.go", method.file)]

/-- The tree of `type T[P z] int` in a file that does not declare `z`: the
type parameter `P` is declared with kind `Typ` and its `Field`, the
constraint `z` stays unresolved. -/
def generic.typeDecl : Decl :=
  .GenDecl { Tok := Token.TYPE,
             Specs := [.TypeSpec { Name := parser.declare ObjKind.Typ DeclNode.TypeSpec "T",
                                   TypeParams := some (.Other "FieldList" [.Other "Field"
                                     [.Ident (parser.declare ObjKind.Typ DeclNode.Field "P"),
                                      .Ident (parser.unresolved "z")]]),
                                   Type_ := .Ident (parser.unresolved "int") }] }

/-- A generic type whose constraint is a name the file does not declare:
`package p; type T[P z] int`. -/
def generic.file : File :=
  { Name := parser.unresolved "p", Decls := [generic.typeDecl] }

/-- The file set of `generic.file`. -/
def generic.lib : Lib :=
  libOf [("dir/a.go", generic.file)]

/-- A file declaring two variables: `package p; var w = 0; var z = 0`. -/
def ranking.fileA : File :=
  { Name := parser.unresolved "p", Decls := [varDecl "w", varDecl "z"] }

/-- The file set of `ranking.fileA` and file B of scenario 3. -/
def ranking.lib : Lib :=
  libOf [("dir/a.go", ranking.fileA), ("dir/b.go", scenario3.fileB)]

/-- Two files that each declare `var x = 1`. -/
def duplicate.lib : Lib :=
  libOf [("dir/a.go", scenario1.file), ("dir/b.go", scenario1.file)]

/-! ## Reference notions for the error paths -/

/-- Whether the type assertion `spec.(*ast.ValueSpec)` succeeds on a spec. -/
def Spec.isValueSpec : Spec → Bool
  | .ValueSpec _ => true
  | _ => false

/-- Whether every type assertion `findGlobalVariables` makes in a declaration
succeeds: the specs of a `GenDecl` with token `VAR` are all `ValueSpec`s. -/
def Decl.assertsOK : Decl → Bool
  | .GenDecl d => if d.Tok = Token.VAR then d.Specs.all Spec.isValueSpec else true
  | _ => true

/-- A path parses, to a tree on which no type assertion fails. -/
def Lib.Reads (lib : Lib) (file : String) : Prop :=
  ∃ f, lib.ParseFile file = .ok f ∧ f.Decls.all Decl.assertsOK = true

/-- The names of the top-level `var` declarations of the files that parse, in
the order of the file list. -/
def declaredNames (lib : Lib) (files : List String) : List String :=
  files.flatMap fun file =>
    match lib.ParseFile file with
    | .ok f => f.globalVarNames
    | .error _ => []

/-- The same libraries with another result of the enumeration. -/
def Lib.withFiles (lib : Lib) (files : List String) : Lib :=
  { lib with Glob := fun _ => .ok files }

/-- A directory without `.go` files. -/
def empty.lib : Lib :=
  libOf []

/-- A file without a top-level `var`: `package p; func f() {}`. -/
def funcOnly.file : File :=
  { Name := parser.unresolved "p", Decls := [funcDecl "f" []] }

/-- The file set of `funcOnly.file`. -/
def funcOnly.lib : Lib :=
  libOf [("dir/a.go", funcOnly.file)]

/-- A directory with the file of scenario 1 and a second file, `dir/bad.go`,
on which `parser.ParseFile` returns an error. -/
def broken.lib : Lib :=
  scenario1.lib.withFiles ["dir/a.go", "dir/bad.go"]

/-- The file set of `ranking.lib` enumerated in the opposite order. -/
def ranking.swapped : Lib :=
  ranking.lib.withFiles ["dir/b.go", "dir/a.go"]

/-- Two files that each declare `var z = 0` and a third that uses `z` six
times. -/
def collision.lib : Lib :=
  libOf [("dir/a.go", scenario3.fileA), ("dir/b.go", scenario3.fileB),
    ("dir/c.go", scenario3.fileA)]

/-- A tree the parser does not build: a `var` group holding an import spec. -/
def illShaped.file : File :=
  { Name := parser.unresolved "p",
    Decls := [.GenDecl { Tok := Token.VAR,
                         Specs := [.ImportSpec { Name := none, Path := "fmt" }] }] }

/-! ## The traversal of `getCount` -/

theorem getCount.visit_ident (variable_ : String) (id : Ident) (counter : Int) :
    getCount.visit variable_ (some (.Ident id)) counter
      = (true, counter + if isUsage variable_ id then 1 else 0) := by
  unfold getCount.visit isUsage
  by_cases hs : isSubjectOfDeclaration id = true
  · simp [hs]
  · by_cases hn : id.Name = variable_ <;> simp [hs, hn]

mutual
theorem Walk_visit (variable_ : String) : ∀ (n : Node) (counter : Int),
    Walk (getCount.visit variable_) n counter
      = counter + ((n.idents.filter (isUsage variable_)).length : Int)
  | .Ident id, counter => by
    rw [Walk, getCount.visit_ident]
    by_cases h : isUsage variable_ id = true <;>
      simp [getCount.visit, Node.idents, List.filter, h]
  | .Other kind children, counter => by
    have ih := walkList_visit variable_ children counter
    simp [Walk, getCount.visit, Node.idents, ih]
theorem walkList_visit (variable_ : String) : ∀ (ns : List Node) (counter : Int),
    walkList (getCount.visit variable_) ns counter
      = counter + (((Node.identsList ns).filter (isUsage variable_)).length : Int)
  | [], counter => by simp [walkList, Node.identsList]
  | n :: ns, counter => by
    rw [walkList, Walk_visit variable_ n counter, walkList_visit variable_ ns]
    simp [Node.identsList, List.filter_append, add_assoc]
end

theorem Node.identsList_append (l1 l2 : List Node) :
    Node.identsList (l1 ++ l2) = Node.identsList l1 ++ Node.identsList l2 := by
  induction l1 with
  | nil => simp [Node.identsList]
  | cons n ns ih => simp [Node.identsList, ih]

theorem Node.identsList_map_Ident (ids : List GoGlobalVarFinder.Ident) :
    Node.identsList (ids.map Node.Ident) = ids := by
  induction ids with
  | nil => simp [Node.identsList]
  | cons id rest ih => simp [Node.identsList, Node.idents, ih]

theorem Node.identsList_toList (n : Option Node) :
    Node.identsList n.toList = Node.identsOpt n := by
  cases n <;> simp [Node.identsList, Node.identsOpt]

theorem spec_node_idents (s : Spec) : s.node.idents = s.allIdents := by
  cases s with
  | ImportSpec s =>
    cases hn : s.Name <;>
      simp [Spec.node, ImportSpec.node, Spec.allIdents, ImportSpec.allIdents, Node.idents,
        Node.identsList, hn]
  | ValueSpec s =>
    simp [Spec.node, ValueSpec.node, Spec.allIdents, ValueSpec.allIdents, Node.idents,
      Node.identsList_append, Node.identsList_map_Ident, Node.identsList_toList]
  | TypeSpec s =>
    simp [Spec.node, TypeSpec.node, Spec.allIdents, TypeSpec.allIdents, Node.idents,
      Node.identsList, Node.identsList_append, Node.identsList_toList]

theorem specs_node_idents (specs : List Spec) :
    Node.identsList (specs.map Spec.node) = specs.flatMap Spec.allIdents := by
  induction specs with
  | nil => simp [Node.identsList]
  | cons s rest ih => simp [Node.identsList, ih, spec_node_idents]

theorem decl_node_idents (d : Decl) : d.node.idents = d.allIdents := by
  cases d with
  | BadDecl => simp [Decl.node, Decl.allIdents, Node.idents, Node.identsList]
  | GenDecl g => simp [Decl.node, GenDecl.node, Decl.allIdents, Node.idents, specs_node_idents]
  | FuncDecl g =>
    simp [Decl.node, FuncDecl.node, Decl.allIdents, FuncDecl.allIdents, Node.idents,
      Node.identsList, Node.identsList_append, Node.identsList_toList]

theorem decls_node_idents (decls : List Decl) :
    Node.identsList (decls.map Decl.node) = decls.flatMap Decl.allIdents := by
  induction decls with
  | nil => simp [Node.identsList]
  | cons d rest ih => simp [Node.identsList, ih, decl_node_idents]

theorem file_node_idents (f : File) : f.node.idents = f.allIdents := by
  simp [File.node, File.allIdents, Node.idents, Node.identsList, decls_node_idents]

theorem Inspect_visit (f : File) (variable_ : String) :
    Inspect f.node (getCount.visit variable_) 0 = ((f.usages variable_).length : Int) := by
  simp [Inspect, Walk_visit, File.usages]

theorem getCount_ok (lib : Lib) (file variable_ : String) (f : File)
    (h : lib.ParseFile file = .ok f) :
    getCount lib file variable_ = (((f.usages variable_).length : Int), none) := by
  simp [getCount, h, Inspect_visit]

/-- C3: on every node and for every name, the traversal of `getCount` adds to
the counter the number of identifier nodes below the node whose name is the
name and on which `isSubjectOfDeclaration` is false; on a file this is the
number of such identifiers among the package clause name and, field by field,
all identifiers of its declarations; `getCount` returns this number for a file
that parses (0 and the error otherwise), and its count is never negative. -/
theorem getCount_counts_usages (lib : Lib) (file variable_ : String) :
    (∀ (n : Node) (counter : Int),
        Inspect n (getCount.visit variable_) counter
          = counter + ((n.idents.filter fun id =>
              !isSubjectOfDeclaration id && decide (id.Name = variable_)).length : Int))
    ∧ (∀ f : File,
        Inspect f.node (getCount.visit variable_) 0
          = ((f.allIdents.filter fun id =>
              !isSubjectOfDeclaration id && decide (id.Name = variable_)).length : Int))
    ∧ getCount lib file variable_
        = (match lib.ParseFile file with
           | .error err => (0, some err)
           | .ok f => (((f.allIdents.filter fun id =>
              !isSubjectOfDeclaration id && decide (id.Name = variable_)).length : Int), none))
    ∧ 0 ≤ (getCount lib file variable_).1 := by
  have hfun : (fun id => !isSubjectOfDeclaration id && decide (id.Name = variable_))
      = isUsage variable_ := rfl
  refine ⟨fun n counter => ?_, fun f => ?_, ?_, ?_⟩
  · rw [hfun]; exact Walk_visit variable_ n counter
  · rw [hfun, ← file_node_idents]; exact Inspect_visit f variable_
  · rw [hfun]
    cases h : lib.ParseFile file with
    | error err => simp [getCount, h]
    | ok f => simpa [File.usages, file_node_idents] using getCount_ok lib file variable_ f h
  · cases h : lib.ParseFile file with
    | error err => simp [getCount, h]
    | ok f => rw [getCount_ok lib file variable_ f h]; exact Int.natCast_nonneg _

theorem getCount_type_parameter_constraint :
    getCount generic.lib "dir/a.go" "z" = (1, none)
    ∧ generic.file.allIdents.map Ident.Name = ["p", "T", "P", "z", "int"] :=
  ⟨rfl, rfl⟩

/-! ## The declaration walk of `findGlobalVariables` -/

theorem findGlobalVariables.names_eq (ids : List Ident) : ∀ variables_ : List String,
    findGlobalVariables.names variables_ ids = variables_ ++ ids.map Ident.Name := by
  induction ids with
  | nil => intro variables_; simp [findGlobalVariables.names]
  | cons id rest ih => intro variables_; simp [findGlobalVariables.names, ih]

theorem findGlobalVariables.specs_ok (specs : List Spec) :
    ∀ variables_ out : List String, findGlobalVariables.specs variables_ specs = .ok out →
      out = variables_ ++ (specs.flatMap Spec.varIdents).map Ident.Name := by
  induction specs with
  | nil => intro variables_ out h; simp [findGlobalVariables.specs] at h; simp [h]
  | cons spec rest ih =>
    intro variables_ out h
    cases spec with
    | ValueSpec vs =>
      rw [findGlobalVariables.specs] at h
      rw [ih _ _ h, findGlobalVariables.names_eq]
      simp [Spec.varIdents]
    | ImportSpec s => simp [findGlobalVariables.specs] at h
    | TypeSpec s => simp [findGlobalVariables.specs] at h

theorem findGlobalVariables.specs_shape (specs : List Spec) :
    ∀ variables_ : List String, (∀ s ∈ specs, ∃ vs, s = Spec.ValueSpec vs) →
      findGlobalVariables.specs variables_ specs
        = .ok (variables_ ++ (specs.flatMap Spec.varIdents).map Ident.Name) := by
  induction specs with
  | nil => intro variables_ _; simp [findGlobalVariables.specs]
  | cons spec rest ih =>
    intro variables_ h
    obtain ⟨vs, rfl⟩ := h spec (List.mem_cons_self _ _)
    rw [findGlobalVariables.specs, ih _ (fun s hs => h s (List.mem_cons_of_mem _ hs)),
      findGlobalVariables.names_eq]
    simp [Spec.varIdents]

theorem findGlobalVariables.decls_ok (decls : List Decl) :
    ∀ variables_ out : List String, findGlobalVariables.decls variables_ decls = .ok out →
      out = variables_ ++ (decls.flatMap Decl.varIdents).map Ident.Name := by
  induction decls with
  | nil => intro variables_ out h; simp [findGlobalVariables.decls] at h; simp [h]
  | cons decl rest ih =>
    intro variables_ out h
    cases decl with
    | BadDecl =>
      simp only [findGlobalVariables.decls] at h
      simpa [Decl.varIdents] using ih _ _ h
    | FuncDecl d =>
      simp only [findGlobalVariables.decls] at h
      simpa [Decl.varIdents] using ih _ _ h
    | GenDecl d =>
      rw [findGlobalVariables.decls] at h
      by_cases ht : d.Tok = Token.VAR
      · rw [if_pos ht] at h
        cases hs : findGlobalVariables.specs variables_ d.Specs with
        | error p => simp [hs] at h
        | ok variables_1 =>
          rw [hs] at h
          rw [ih _ _ h, findGlobalVariables.specs_ok _ _ _ hs]
          simp [Decl.varIdents, ht]
      · rw [if_neg ht] at h
        simpa [Decl.varIdents, ht] using ih _ _ h

theorem findGlobalVariables.decls_shape (decls : List Decl) :
    ∀ variables_ : List String,
      (∀ d, Decl.GenDecl d ∈ decls → d.Tok = Token.VAR →
        ∀ s ∈ d.Specs, ∃ vs, s = Spec.ValueSpec vs) →
      findGlobalVariables.decls variables_ decls
        = .ok (variables_ ++ (decls.flatMap Decl.varIdents).map Ident.Name) := by
  induction decls with
  | nil => intro variables_ _; simp [findGlobalVariables.decls]
  | cons decl rest ih =>
    intro variables_ h
    have hrest : ∀ d, Decl.GenDecl d ∈ rest → d.Tok = Token.VAR →
        ∀ s ∈ d.Specs, ∃ vs, s = Spec.ValueSpec vs :=
      fun d hd => h d (List.mem_cons_of_mem _ hd)
    cases decl with
    | BadDecl =>
      simp only [findGlobalVariables.decls]
      rw [ih _ hrest]; simp [Decl.varIdents]
    | FuncDecl d =>
      simp only [findGlobalVariables.decls]
      rw [ih _ hrest]; simp [Decl.varIdents]
    | GenDecl d =>
      rw [findGlobalVariables.decls]
      by_cases ht : d.Tok = Token.VAR
      · rw [if_pos ht, findGlobalVariables.specs_shape _ _ (h d (List.mem_cons_self _ _) ht)]
        simp only []
        rw [ih _ hrest]
        simp [Decl.varIdents, ht]
      · rw [if_neg ht, ih _ hrest]; simp [Decl.varIdents, ht]

theorem findGlobalVariables.decls_skip (decls : List Decl) : ∀ variables_ : List String,
    (∀ d ∈ decls, d.isVarGroup = false) →
      findGlobalVariables.decls variables_ decls = .ok variables_ := by
  induction decls with
  | nil => intro variables_ _; simp [findGlobalVariables.decls]
  | cons decl rest ih =>
    intro variables_ h
    have hrest := ih variables_ (fun d hd => h d (List.mem_cons_of_mem _ hd))
    have hd := h decl (List.mem_cons_self _ _)
    cases decl with
    | BadDecl => simpa only [findGlobalVariables.decls] using hrest
    | FuncDecl d => simpa only [findGlobalVariables.decls] using hrest
    | GenDecl d =>
      have ht : ¬ d.Tok = Token.VAR := by simpa [Decl.isVarGroup] using hd
      simpa only [findGlobalVariables.decls, if_neg ht] using hrest

theorem findGlobalVariables.decls_other (decls : List Decl) (variables_ : List String) :
    findGlobalVariables.decls variables_ (decls.filter fun d => !d.isVarGroup)
      = .ok variables_ := by
  apply findGlobalVariables.decls_skip
  intro d hd
  simpa using (List.mem_filter.mp hd).2

theorem findGlobalVariables_ok (lib : Lib) (variables_ out : List String) (file : String)
    (f : File) (hparse : lib.ParseFile file = .ok f) (err : Option Error)
    (h : findGlobalVariables lib variables_ file = .ok (out, err)) :
    out = variables_ ++ f.globalVarNames ∧ err = none := by
  unfold findGlobalVariables at h
  rw [hparse] at h
  simp only [] at h
  cases hd : findGlobalVariables.decls variables_ f.Decls with
  | error p => simp [hd] at h
  | ok variables_1 =>
    rw [hd] at h
    simp only [Except.ok.injEq, Prod.mk.injEq] at h
    obtain ⟨h1, h2⟩ := h
    subst h1
    exact ⟨findGlobalVariables.decls_ok _ _ _ hd, h2.symm⟩

/-- C4: for a file that parses to a tree of the parser's shape and every input
list, `findGlobalVariables` returns the input list followed by the names of the
top-level `var` groups of the file in source order, with a nil error; the
declarations that are no `var` group append nothing, and no name is dropped as
a repetition (the length grows by the number of declared names). -/
theorem findGlobalVariables_appends_var_names (lib : Lib) (variables_ : List String)
    (file : String) (f : File) (hparse : lib.ParseFile file = .ok f)
    (hshape : f.VarSpecsAreValueSpecs) :
    findGlobalVariables lib variables_ file
        = .ok (variables_ ++ (f.Decls.flatMap fun d =>
            match d with
            | .GenDecl g =>
              if g.Tok = Token.VAR then
                g.Specs.flatMap fun s =>
                  match s with
                  | .ValueSpec vs => vs.Names.map Ident.Name
                  | _ => []
              else []
            | _ => []), none)
    ∧ findGlobalVariables.decls variables_ (f.Decls.filter fun d => !d.isVarGroup)
        = .ok variables_
    ∧ ∀ out err, findGlobalVariables lib variables_ file = .ok (out, err) →
        out.length = variables_.length + f.globalVarIdents.length := by
  have hnames : (f.Decls.flatMap fun d =>
            match d with
            | .GenDecl g =>
              if g.Tok = Token.VAR then
                g.Specs.flatMap fun s =>
                  match s with
                  | .ValueSpec vs => vs.Names.map Ident.Name
                  | _ => []
              else []
            | _ => []) = f.globalVarNames := by
    unfold File.globalVarNames File.globalVarIdents
    rw [List.map_flatMap]
    congr 1
    funext d
    cases d with
    | BadDecl => simp [Decl.varIdents]
    | FuncDecl d => simp [Decl.varIdents]
    | GenDecl g =>
      by_cases ht : g.Tok = Token.VAR
      · simp only [Decl.varIdents, ht, if_true, List.map_flatMap]
        congr 1
        funext s
        cases s <;> simp [Spec.varIdents]
      · simp [Decl.varIdents, ht]
  refine ⟨?_, findGlobalVariables.decls_other _ _, ?_⟩
  · rw [hnames]
    unfold findGlobalVariables
    rw [hparse]
    simp only []
    rw [findGlobalVariables.decls_shape _ _ hshape]
    rfl
  · intro out err h
    obtain ⟨h1, _⟩ := findGlobalVariables_ok lib variables_ out file f hparse err h
    simp [h1, File.globalVarNames]

/-- C4, at scenario 2: the file `var y = 1; func f() { return y + y }` appends
`y` to the list `["a"]`. -/
theorem findGlobalVariables_appends_var_names_witness :
    findGlobalVariables (libOf [("dir/a.go", scenario2.file)]) ["a"] "dir/a.go"
      = .ok (["a", "y"], none) := by
  have h := (findGlobalVariables_appends_var_names (libOf [("dir/a.go", scenario2.file)])
    ["a"] "dir/a.go" scenario2.file rfl (by
      intro d hd _ s hs
      simp [scenario2.file, varDecl, funcDecl] at hd
      subst hd
      simp at hs
      exact ⟨_, hs⟩)).1
  rw [h]
  rfl

/-! ## The classifier `isSubjectOfDeclaration` -/

/-- C5, as stated, fails: the binding identifier of a function parameter, of
a struct field and of an interface method, as the parser leaves them (kind
`Var` resp. `Fun`, `Decl` the field), is classified as a declaration
subject. -/
theorem isSubjectOfDeclaration_parameter_is_subject :
    ¬ (isSubjectOfDeclaration (parser.declare ObjKind.Var DeclNode.Field "p") = false)
    ∧ ¬ (isSubjectOfDeclaration (parser.declare ObjKind.Fun DeclNode.Field "Close") = false) := by
  decide

/-- C5, amended: on a binding identifier as the parser leaves it,
`isSubjectOfDeclaration` is true exactly when the object kind is `Var`, `Typ`
or `Fun`, whatever node declares it; so it is false on a constant name (kind
`Con`), a label and a package name, and true on a parameter or struct field
name (kind `Var`) and on an interface method name (kind `Fun`).  On an
identifier without object it is false. -/
theorem isSubjectOfDeclaration_by_kind (kind : ObjKind) (decl : DeclNode) (name : String) :
    (isSubjectOfDeclaration (parser.declare kind decl name) = true
        ↔ kind = ObjKind.Var ∨ kind = ObjKind.Typ ∨ kind = ObjKind.Fun)
    ∧ isSubjectOfDeclaration (parser.declare ObjKind.Con decl name) = false
    ∧ isSubjectOfDeclaration (parser.declare ObjKind.Lbl decl name) = false
    ∧ isSubjectOfDeclaration (parser.declare ObjKind.Pkg decl name) = false
    ∧ isSubjectOfDeclaration (parser.declare ObjKind.Var DeclNode.Field name) = true
    ∧ isSubjectOfDeclaration (parser.declare ObjKind.Fun DeclNode.Field name) = true
    ∧ isSubjectOfDeclaration (parser.unresolved name) = false := by
  refine ⟨?_, ?_, ?_, ?_, ?_, ?_, ?_⟩ <;>
    cases kind <;> simp [isSubjectOfDeclaration, parser.declare, parser.unresolved]

/-! ## The loops of `main` -/

theorem main.variables_ok (lib : Lib) (files : List String) :
    ∀ variables_ out : List String, main.variables lib files variables_ = .ok out →
      ∃ trees : List File,
        List.Forall₂ (fun file f => lib.ParseFile file = .ok f) files trees
        ∧ out = variables_ ++ trees.flatMap File.globalVarNames := by
  induction files with
  | nil =>
    intro variables_ out h
    simp [main.variables] at h
    exact ⟨[], List.Forall₂.nil, by simp [h]⟩
  | cons file rest ih =>
    intro variables_ out h
    rw [main.variables] at h
    cases hf : findGlobalVariables lib variables_ file with
    | error p => simp [hf] at h
    | ok res =>
      obtain ⟨variables_1, err⟩ := res
      cases hp : lib.ParseFile file with
      | error e =>
        simp [findGlobalVariables, hp] at hf
        obtain ⟨_, rfl⟩ := hf
        simp [findGlobalVariables, hp] at h
      | ok f =>
        obtain ⟨h1, h2⟩ := findGlobalVariables_ok lib variables_ variables_1 file f hp err hf
        subst h2
        rw [hf] at h
        obtain ⟨trees, ht, hout⟩ := ih _ _ h
        exact ⟨f :: trees, List.Forall₂.cons hp ht, by simp [hout, h1]⟩

theorem main.count_ok (lib : Lib) (v : String) (files : List String) :
    ∀ count out : Int, main.count lib v files count = .ok out →
      out = count + totalCount lib files v := by
  induction files with
  | nil => intro count out h; simp [main.count] at h; simp [totalCount, h]
  | cons file rest ih =>
    intro count out h
    rw [main.count] at h
    rcases hg : getCount lib file v with ⟨c, err⟩
    rw [hg] at h
    cases err with
    | some e => simp at h
    | none =>
      have := ih _ _ h
      simp only [totalCount] at this ⊢
      simp [this, hg, add_assoc]

theorem main.records_ok (lib : Lib) (files : List String) (variables_ : List String) :
    ∀ records out : recordSlice, main.records lib files variables_ records = .ok out →
      out = records ++ variables_.map fun v =>
        { variable_ := v, count := totalCount lib files v } := by
  induction variables_ with
  | nil => intro records out h; simp [main.records] at h; simp [h]
  | cons v rest ih =>
    intro records out h
    rw [main.records] at h
    cases hc : main.count lib v files 0 with
    | error p => simp [hc] at h
    | ok count =>
      rw [hc] at h
      have hcount := main.count_ok lib v files 0 count hc
      simp only [zero_add] at hcount
      rw [ih _ _ h, hcount]
      simp

theorem main.ranked_ok (lib : Lib) (dir : String) (rs : recordSlice)
    (h : main.ranked lib dir = .ok rs) :
    dir ≠ "" ∧ ∃ files variables_ : List String,
      lib.Glob (dir ++ "/**/*.go") = .ok files
      ∧ main.variables lib files [] = .ok variables_
      ∧ rs = lib.Sort_ (variables_.map fun v =>
          { variable_ := v, count := totalCount lib files v }) := by
  unfold main.ranked at h
  by_cases hd : dir = ""
  · simp [hd] at h
  · rw [if_neg hd] at h
    refine ⟨hd, ?_⟩
    cases hg : lib.Glob (dir ++ "/**/*.go") with
    | error e => simp [findGoFiles, hg] at h
    | ok files =>
      simp only [findGoFiles, hg] at h
      cases hv : main.variables lib files [] with
      | error p => simp [hv] at h
      | ok variables_ =>
        simp only [hv] at h
        cases hr : main.records lib files variables_ [] with
        | error p => simp [hr] at h
        | ok records =>
          simp only [hr, Except.ok.injEq] at h
          have := main.records_ok lib files variables_ [] records hr
          simp only [List.nil_append] at this
          exact ⟨files, variables_, rfl, hv, by rw [← h, this]⟩

/-! ## The order of the records -/

theorem set_get_perm (t : List record) : ∀ (j : Nat) (h : j < t.length) (a : record),
    (t.get ⟨j, h⟩ :: t.set j a).Perm (a :: t) := by
  induction t with
  | nil => intro j h; simp at h
  | cons b rest ih =>
    intro j h a
    cases j with
    | zero => simpa using List.Perm.swap a b rest
    | succ j =>
      have := ih j (by simpa using h) a
      simp only [List.get_cons_succ, List.set_cons_succ]
      exact (List.Perm.swap _ _ _).trans ((List.Perm.cons b this).trans (List.Perm.swap _ _ _))

theorem recordSlice.Swap_perm (r : recordSlice) : ∀ (i j : Nat) (hi : i < r.length)
    (hj : j < r.length), (r.Swap i j hi hj).Perm r := by
  induction r with
  | nil => intro i j hi; simp at hi
  | cons a rest ih =>
    intro i j hi hj
    cases i with
    | zero =>
      cases j with
      | zero => simp [recordSlice.Swap]
      | succ j =>
        simpa [recordSlice.Swap] using set_get_perm rest j (by simpa using hj) a
    | succ i =>
      cases j with
      | zero =>
        simpa [recordSlice.Swap] using set_get_perm rest i (by simpa using hi) a
      | succ j =>
        have := ih i j (by simpa using hi) (by simpa using hj)
        simpa [recordSlice.Swap] using this

theorem recordSlice.perm_of_swaps {r r1 : recordSlice} (h : recordSlice.Swaps r r1) :
    r1.Perm r := by
  induction h with
  | done r => exact List.Perm.refl r
  | swap r r1 i j hi hj _ ih => exact ih.trans (recordSlice.Swap_perm r i j hi hj)

theorem recordSlice.Less_append (L : List record) (y x : record) (R : List record)
    (h1 : L.length + 1 < (L ++ y :: x :: R).length) (h2 : L.length < (L ++ y :: x :: R).length) :
    recordSlice.Less (L ++ y :: x :: R) (L.length + 1) L.length h1 h2
      = decide (x.count > y.count) := by
  induction L with
  | nil => simp [recordSlice.Less]
  | cons a rest ih =>
    have := ih (by simp) (by simp)
    simpa [recordSlice.Less] using this

theorem recordSlice.Swap_append (L : List record) (y x : record) (R : List record)
    (h1 : L.length + 1 < (L ++ y :: x :: R).length) (h2 : L.length < (L ++ y :: x :: R).length) :
    recordSlice.Swap (L ++ y :: x :: R) (L.length + 1) L.length h1 h2 = L ++ x :: y :: R := by
  induction L with
  | nil => simp [recordSlice.Swap]
  | cons a rest ih =>
    have := ih (by simp) (by simp)
    simpa [recordSlice.Swap] using this

theorem sort.insertionSort.inner_swaps : ∀ (j : Nat) (data : recordSlice) (hj : j < data.Len),
    recordSlice.Swaps data (sort.insertionSort.inner j data hj)
  | 0, data, _ => by rw [sort.insertionSort.inner]; exact recordSlice.Swaps.done data
  | j + 1, data, hj => by
    rw [sort.insertionSort.inner]
    split
    · exact recordSlice.Swaps.swap data _ (j + 1) j hj (Nat.lt_of_succ_lt hj)
        (sort.insertionSort.inner_swaps j _ _)
    · exact recordSlice.Swaps.done data

theorem recordSlice.swaps_trans {r r1 r2 : recordSlice} (h1 : recordSlice.Swaps r r1)
    (h2 : recordSlice.Swaps r1 r2) : recordSlice.Swaps r r2 := by
  induction h1 with
  | done r => exact h2
  | swap r r1 i j hi hj _ ih => exact recordSlice.Swaps.swap r _ i j hi hj (ih h2)

theorem sort.insertionSort.outer_swaps : ∀ (fuel : Nat) (data : recordSlice) (i : Nat),
    recordSlice.Swaps data (sort.insertionSort.outer fuel data i)
  | 0, data, _ => by rw [sort.insertionSort.outer]; exact recordSlice.Swaps.done data
  | fuel + 1, data, i => by
    rw [sort.insertionSort.outer]
    split
    · exact recordSlice.swaps_trans (sort.insertionSort.inner_swaps i data _)
        (sort.insertionSort.outer_swaps fuel _ (i + 1))
    · exact recordSlice.Swaps.done data

theorem sort.insertionSort.inner_spec : ∀ (j : Nat) (data : recordSlice) (hj : j < data.Len)
    (L : List record) (x : record) (R : List record), data = L ++ x :: R → L.length = j →
    ∃ L1, sort.insertionSort.inner j data hj = L1 ++ R ∧ L1.Perm (L ++ [x])
      ∧ (L.Pairwise (fun r1 r2 => r2.count ≤ r1.count) →
          L1.Pairwise (fun r1 r2 => r2.count ≤ r1.count))
  | 0, data, hj, L, x, R, hdata, hlen => by
    have hL : L = [] := List.length_eq_zero.mp hlen
    subst hL
    refine ⟨[x], ?_, List.Perm.refl _, fun _ => List.pairwise_singleton _ _⟩
    rw [sort.insertionSort.inner, hdata]
    rfl
  | j + 1, data, hj, L, x, R, hdata, hlen => by
    have hne : L ≠ [] := by
      intro h
      rw [h] at hlen
      simp at hlen
    obtain ⟨L0, y, rfl⟩ : ∃ L0 y, L = L0 ++ [y] :=
      ⟨L.dropLast, L.getLast hne, (List.dropLast_append_getLast hne).symm⟩
    have hlen0 : L0.length = j := by simpa using hlen
    subst hlen0
    have hdata1 : data = L0 ++ y :: x :: R := by simp [hdata]
    subst hdata1
    rw [sort.insertionSort.inner]
    simp only [recordSlice.Less_append, recordSlice.Swap_append]
    by_cases hlt : x.count > y.count
    · simp only [hlt, decide_True, if_true]
      obtain ⟨L1, heq, hperm, hsorted⟩ := sort.insertionSort.inner_spec L0.length
        (L0 ++ x :: y :: R) (by simp [recordSlice.Len]) L0 x (y :: R) rfl rfl
      refine ⟨L1 ++ [y], by simp [heq], ?_, ?_⟩
      · exact (hperm.append_right [y]).trans (by
          simp only [List.append_assoc, List.singleton_append]
          exact List.Perm.append_left L0 (List.Perm.swap y x []))
      · intro hL
        rw [List.pairwise_append] at hL ⊢
        obtain ⟨hL0, _, hy⟩ := hL
        refine ⟨hsorted hL0, List.pairwise_singleton _ _, ?_⟩
        intro a ha b hb
        simp only [List.mem_singleton] at hb
        subst hb
        rcases List.mem_append.mp (hperm.subset ha) with ha0 | hax
        · exact hy a ha0 b (by simp)
        · simp only [List.mem_singleton] at hax
          subst hax
          exact le_of_lt hlt
    · simp only [hlt, decide_False]
      refine ⟨L0 ++ [y] ++ [x], by simp, List.Perm.refl _, ?_⟩
      intro hL
      rw [List.pairwise_append]
      refine ⟨hL, List.pairwise_singleton _ _, ?_⟩
      intro a ha b hb
      simp only [List.mem_singleton] at hb
      subst hb
      rcases List.mem_append.mp ha with ha0 | hay
      · rw [List.pairwise_append] at hL
        exact le_trans (not_lt.mp hlt) (hL.2.2 a ha0 y (by simp))
      · simp only [List.mem_singleton] at hay
        subst hay
        exact not_lt.mp hlt

theorem sort.insertionSort.outer_spec : ∀ (fuel : Nat) (data : recordSlice) (i : Nat)
    (P S : List record), data = P ++ S → P.length = i →
    P.Pairwise (fun r1 r2 => r2.count ≤ r1.count) → S.length ≤ fuel →
    (sort.insertionSort.outer fuel data i).Pairwise (fun r1 r2 => r2.count ≤ r1.count)
  | 0, data, i, P, S, hdata, _, hP, hS => by
    have hnil : S = [] := List.length_eq_zero.mp (Nat.le_zero.mp hS)
    rw [sort.insertionSort.outer, hdata, hnil, List.append_nil]
    exact hP
  | fuel + 1, data, i, P, S, hdata, hlen, hP, hS => by
    rw [sort.insertionSort.outer]
    split
    · rename_i h
      cases S with
      | nil =>
        rw [hdata] at h
        simp [recordSlice.Len, hlen] at h
      | cons x R =>
        obtain ⟨P1, heq, hperm, hsorted⟩ :=
          sort.insertionSort.inner_spec i data h P x R hdata hlen
        rw [heq]
        exact sort.insertionSort.outer_spec fuel (P1 ++ R) (i + 1) P1 R rfl
          (by simpa [hlen] using hperm.length_eq) (hsorted hP)
          (by simpa using hS)
    · rename_i h
      have hnil : S = [] := by
        cases S with
        | nil => rfl
        | cons x R =>
          rw [hdata] at h
          simp [recordSlice.Len, hlen] at h
      rw [hdata, hnil, List.append_nil]
      exact hP

theorem sort.insertionSort_pairwise (data : recordSlice) :
    (sort.insertionSort data).Pairwise (fun r1 r2 => r2.count ≤ r1.count) := by
  cases data with
  | nil => simp [sort.insertionSort, recordSlice.Len, sort.insertionSort.outer]
  | cons d rest =>
    exact sort.insertionSort.outer_spec _ (d :: rest) 1 [d] rest rfl rfl
      (List.pairwise_singleton _ _) (by simp [recordSlice.Len])

theorem recordSlice.IsSorted_of_pairwise (r : recordSlice)
    (h : r.Pairwise (fun r1 r2 => r2.count ≤ r1.count)) : r.IsSorted := by
  intro i hi
  have hp := List.pairwise_iff_get.mp h ⟨i, Nat.lt_of_succ_lt hi⟩ ⟨i + 1, hi⟩
    (by simp [Fin.lt_def])
  simpa [recordSlice.Less] using hp

theorem sort.insertionSort_sorts (data : recordSlice) :
    recordSlice.Swaps data (sort.insertionSort data) ∧ (sort.insertionSort data).IsSorted :=
  ⟨sort.insertionSort.outer_swaps _ data 1,
   recordSlice.IsSorted_of_pairwise _ (sort.insertionSort_pairwise data)⟩


theorem Lib.SortOK.perm {lib : Lib} (h : lib.SortOK) (r : recordSlice) :
    (lib.Sort_ r).Perm r :=
  recordSlice.perm_of_swaps (h.swaps r)

theorem libOf_sortOK (files : List (String × File)) : (libOf files).SortOK where
  swaps := fun r => (sort.insertionSort_sorts r).1
  sorted := fun r => (sort.insertionSort_sorts r).2

theorem recordSlice.Less_strict_weak (r : recordSlice) (i j k : Nat) (hi : i < r.length)
    (hj : j < r.length) (hk : k < r.length) :
    r.Less i i hi hi = false
    ∧ (r.Less i j hi hj = true → r.Less j k hj hk = true → r.Less i k hi hk = true)
    ∧ (r.Less i j hi hj = false → r.Less j k hj hk = false → r.Less i k hi hk = false) := by
  simp only [recordSlice.Less, decide_eq_true_eq, decide_eq_false_iff_not, gt_iff_lt, not_lt]
  exact ⟨le_refl _, fun h1 h2 => lt_trans h2 h1, fun h1 h2 => le_trans h1 h2⟩

theorem recordSlice.IsSorted.chain (r : recordSlice) (h : r.IsSorted) :
    List.Chain' (fun r1 r2 : record => r1.count ≥ r2.count) r := by
  rw [List.chain'_iff_get]
  intro i hi
  have hlt : i + 1 < r.length := by omega
  have := h i hlt
  simpa [recordSlice.Less] using this

/-- C1: run through `Len`, `Less` and `Swap` of `recordSlice`, the insertion
sort of `sort.Sort` rearranges every slice by calls of `Swap` into one on
which no `Less(i, i-1)` holds, that is, whose adjacent counts are
non-increasing; and when the pipeline succeeds with a `sort.Sort` that leaves
a slice reached by `Swap` calls on which `sort.IsSorted` holds, every adjacent
pair (r1, r2) of the ranked records has r1.count >= r2.count, and so has every
pair of an earlier and a later record. -/
theorem ranked_counts_non_increasing (lib : Lib) (hsort : lib.SortOK) (dir : String)
    (rs : recordSlice) (h : main.ranked lib dir = .ok rs) :
    List.Chain' (fun r1 r2 : record => r1.count ≥ r2.count) rs
    ∧ rs.Pairwise (fun r1 r2 : record => r1.count ≥ r2.count)
    ∧ ∀ data : recordSlice,
        recordSlice.Swaps data (sort.Sort_ data)
        ∧ (∀ i (hi : i + 1 < (sort.Sort_ data).Len),
            (sort.Sort_ data).Less (i + 1) i hi (Nat.lt_of_succ_lt hi) = false)
        ∧ List.Chain' (fun r1 r2 : record => r1.count ≥ r2.count) (sort.Sort_ data) := by
  obtain ⟨_, files, variables_, _, _, hrs⟩ := main.ranked_ok lib dir rs h
  have hchain : List.Chain' (fun r1 r2 : record => r1.count ≥ r2.count) rs := by
    rw [hrs]
    exact recordSlice.IsSorted.chain _ (hsort.sorted _)
  haveI : IsTrans record (fun r1 r2 : record => r1.count ≥ r2.count) :=
    ⟨fun _ _ _ hab hbc => le_trans hbc hab⟩
  refine ⟨hchain, List.chain'_iff_pairwise.mp hchain, fun data => ?_⟩
  have hsorts := sort.insertionSort_sorts data
  exact ⟨hsorts.1, hsorts.2, recordSlice.IsSorted.chain _ hsorts.2⟩

/-- C1, on the file set `var w = 0; var z = 0` and a file using `z` six times:
the records are collected as (w, 0), (z, 6); the insertion sort swaps them,
and the ranking is (z, 6), (w, 0). -/
theorem ranked_counts_non_increasing_witness :
    main.ranked ranking.lib "dir"
        = .ok [{ variable_ := "z", count := 6 }, { variable_ := "w", count := 0 }]
    ∧ sort.Sort_ [{ variable_ := "w", count := 0 }, { variable_ := "z", count := 6 }]
        = recordSlice.Swap [{ variable_ := "w", count := 0 }, { variable_ := "z", count := 6 }]
            1 0 (by decide) (by decide)
    ∧ List.Chain' (fun r1 r2 : record => r1.count ≥ r2.count)
        [{ variable_ := "z", count := 6 }, { variable_ := "w", count := 0 }] :=
  ⟨rfl, rfl, (ranked_counts_non_increasing ranking.lib (libOf_sortOK _) "dir" _ rfl).1⟩

theorem main.ranked_perm (lib : Lib) (hperm : ∀ r, (lib.Sort_ r).Perm r) (dir : String)
    (rs : recordSlice) (h : main.ranked lib dir = .ok rs) :
    ∃ (files : List String) (trees : List File),
      lib.Glob (dir ++ "/**/*.go") = .ok files
      ∧ List.Forall₂ (fun file f => lib.ParseFile file = .ok f) files trees
      ∧ main.variables lib files [] = .ok (trees.flatMap File.globalVarNames)
      ∧ rs.Perm ((trees.flatMap File.globalVarNames).map fun v =>
          { variable_ := v, count := totalCount lib files v }) := by
  obtain ⟨_, files, variables_, hglob, hvars, hrs⟩ := main.ranked_ok lib dir rs h
  obtain ⟨trees, htrees, hnames⟩ := main.variables_ok lib files [] variables_ hvars
  simp only [List.nil_append] at hnames
  subst hnames
  refine ⟨files, trees, hglob, htrees, hvars, ?_⟩
  rw [hrs]
  exact hperm _

/-- C6: when the pipeline succeeds, the ranked records are a permutation of
the list that maps each entry v of the collected name sequence (the top-level
`var` names of the files in enumeration order, repetitions kept) to the record
(v, sum over the files of the count of `getCount`). -/
theorem ranked_perm_of_counts (lib : Lib) (hperm : ∀ r, (lib.Sort_ r).Perm r) (dir : String)
    (rs : recordSlice) (h : main.ranked lib dir = .ok rs) :
    ∃ (files : List String) (trees : List File),
      lib.Glob (dir ++ "/**/*.go") = .ok files
      ∧ List.Forall₂ (fun file f => lib.ParseFile file = .ok f) files trees
      ∧ main.variables lib files [] = .ok (trees.flatMap File.globalVarNames)
      ∧ rs.Perm ((trees.flatMap File.globalVarNames).map fun v =>
          { variable_ := v, count := (files.map fun file => (getCount lib file v).1).sum }) :=
  main.ranked_perm lib hperm dir rs h

/-- C6, on the file set `var w = 0; var z = 0` and a file using `z` six
times. -/
theorem ranked_perm_of_counts_witness :
    ∃ (files : List String) (trees : List File),
      ranking.lib.Glob ("dir" ++ "/**/*.go") = .ok files
      ∧ List.Forall₂ (fun file f => ranking.lib.ParseFile file = .ok f) files trees
      ∧ main.variables ranking.lib files [] = .ok (trees.flatMap File.globalVarNames)
      ∧ List.Perm
          ([{ variable_ := "z", count := 6 }, { variable_ := "w", count := 0 }] : recordSlice)
          ((trees.flatMap File.globalVarNames).map fun v =>
            { variable_ := v,
              count := (files.map fun file => (getCount ranking.lib file v).1).sum }) :=
  ranked_perm_of_counts ranking.lib (libOf_sortOK _).perm "dir"
    [{ variable_ := "z", count := 6 }, { variable_ := "w", count := 0 }] rfl

/-- C7: when the pipeline succeeds, the ranked output has as many records as
the collected name sequence has entries, which is the number of declaring
identifiers of the top-level `var` groups of all files; and for every name the
number of rows carrying it is the number of times it was collected, so a name
declared twice yields two rows. -/
theorem ranked_length (lib : Lib) (hperm : ∀ r, (lib.Sort_ r).Perm r) (dir : String)
    (rs : recordSlice) (h : main.ranked lib dir = .ok rs) :
    ∃ (files : List String) (trees : List File) (variables_ : List String),
      lib.Glob (dir ++ "/**/*.go") = .ok files
      ∧ List.Forall₂ (fun file f => lib.ParseFile file = .ok f) files trees
      ∧ main.variables lib files [] = .ok variables_
      ∧ rs.length = variables_.length
      ∧ variables_.length = (trees.flatMap File.globalVarIdents).length
      ∧ ∀ v, (rs.filter fun r => decide (r.variable_ = v)).length = variables_.count v := by
  obtain ⟨files, trees, hglob, htrees, hvars, hp⟩ := main.ranked_perm lib hperm dir rs h
  refine ⟨files, trees, _, hglob, htrees, hvars, ?_, ?_, ?_⟩
  · simpa using hp.length_eq
  · have hmap : trees.flatMap File.globalVarNames
        = (trees.flatMap File.globalVarIdents).map Ident.Name := by
      rw [List.map_flatMap]; rfl
    rw [hmap, List.length_map]
  · intro v
    rw [(hp.filter _).length_eq, List.filter_map, List.length_map, List.count,
      List.countP_eq_length_filter]
    congr 1

/-- C7, on two files that each declare `var x = 1`: two rows for `x`. -/
theorem ranked_length_witness :
    main.ranked duplicate.lib "dir"
        = .ok [{ variable_ := "x", count := 0 }, { variable_ := "x", count := 0 }]
    ∧ ∃ (files : List String) (trees : List File) (variables_ : List String),
      duplicate.lib.Glob ("dir" ++ "/**/*.go") = .ok files
      ∧ List.Forall₂ (fun file f => duplicate.lib.ParseFile file = .ok f) files trees
      ∧ main.variables duplicate.lib files [] = .ok variables_
      ∧ List.length [({ variable_ := "x", count := 0 } : record), { variable_ := "x", count := 0 }]
          = variables_.length
      ∧ variables_.length = (trees.flatMap File.globalVarIdents).length
      ∧ ∀ v, (List.filter (fun r => decide (r.variable_ = v))
          [({ variable_ := "x", count := 0 } : record), { variable_ := "x", count := 0 }]).length
            = variables_.count v :=
  ⟨rfl, ranked_length duplicate.lib (libOf_sortOK _).perm "dir" _ rfl⟩

/-! ## Declaration occurrences and usages -/

theorem spec_varIdents_sublist (s : Spec) : s.varIdents.Sublist s.node.idents := by
  cases s with
  | ValueSpec vs =>
    simp only [Spec.varIdents, Spec.node, ValueSpec.node, Node.idents, Node.identsList_append,
      Node.identsList_map_Ident, List.append_assoc]
    exact List.sublist_append_left _ _
  | ImportSpec s => simp [Spec.varIdents]
  | TypeSpec s => simp [Spec.varIdents]

theorem specs_varIdents_sublist (specs : List Spec) :
    (specs.flatMap Spec.varIdents).Sublist (Node.identsList (specs.map Spec.node)) := by
  induction specs with
  | nil => simp [Node.identsList]
  | cons s rest ih =>
    simp only [List.flatMap_cons, List.map_cons, Node.identsList]
    exact (spec_varIdents_sublist s).append ih

theorem decl_varIdents_sublist (d : Decl) : d.varIdents.Sublist d.node.idents := by
  cases d with
  | BadDecl => simp [Decl.varIdents]
  | FuncDecl d => simp [Decl.varIdents]
  | GenDecl g =>
    by_cases ht : g.Tok = Token.VAR
    · simp only [Decl.varIdents, if_pos ht, Decl.node, GenDecl.node, Node.idents]
      exact specs_varIdents_sublist _
    · simp [Decl.varIdents, ht]

theorem decls_varIdents_sublist (decls : List Decl) :
    (decls.flatMap Decl.varIdents).Sublist (Node.identsList (decls.map Decl.node)) := by
  induction decls with
  | nil => simp [Node.identsList]
  | cons d rest ih =>
    simp only [List.flatMap_cons, List.map_cons, Node.identsList]
    exact (decl_varIdents_sublist d).append ih

theorem File.globalVarIdents_sublist (f : File) : f.globalVarIdents.Sublist f.node.idents := by
  simp only [File.globalVarIdents, File.node, Node.idents, Node.identsList]
  exact (decls_varIdents_sublist _).trans (List.sublist_append_right _ _)

theorem isSubjectOfDeclaration_declare (kind : ObjKind) (decl : DeclNode) (name : String)
    (hkind : kind = ObjKind.Var ∨ kind = ObjKind.Typ ∨ kind = ObjKind.Fun) :
    isSubjectOfDeclaration (parser.declare kind decl name) = true := by
  rcases hkind with rfl | rfl | rfl <;> simp [isSubjectOfDeclaration, parser.declare]

theorem totalCount_eq_zero (lib : Lib) (files : List String) (v : String)
    (h : ∀ file ∈ files, (getCount lib file v).1 = 0) : totalCount lib files v = 0 := by
  unfold totalCount
  apply List.sum_eq_zero
  intro x hx
  obtain ⟨file, hfile, rfl⟩ := List.mem_map.mp hx
  exact h file hfile

theorem forall₂_parse_mem (lib : Lib) (files : List String) (trees : List File)
    (h : List.Forall₂ (fun file f => lib.ParseFile file = .ok f) files trees)
    (file : String) (hfile : file ∈ files) (f : File) (hparse : lib.ParseFile file = .ok f) :
    f ∈ trees := by
  induction h with
  | nil => simp at hfile
  | cons hab _ ih =>
    rcases List.mem_cons.mp hfile with rfl | hrest
    · rw [hparse] at hab
      simp only [Except.ok.injEq] at hab
      simp [hab]
    · exact List.mem_cons_of_mem _ (ih hrest)

theorem File.usages_eq_nil (f : File) (v : String) (hdeclared : f.VarsDeclared)
    (hnowhere : (f.node.idents.filter fun id => decide (id.Name = v)).length
      = (f.globalVarIdents.filter fun id => decide (id.Name = v)).length) :
    f.usages v = [] := by
  have heq := (f.globalVarIdents_sublist.filter fun id => decide (id.Name = v)).eq_of_length
    hnowhere.symm
  rw [File.usages, List.filter_eq_nil_iff]
  intro id hid husage
  have hname : id.Name = v := by
    simp only [isUsage, Bool.and_eq_true, decide_eq_true_eq] at husage
    exact husage.2
  have hmem : id ∈ f.node.idents.filter fun id => decide (id.Name = v) :=
    List.mem_filter.mpr ⟨hid, by simpa using hname⟩
  rw [← heq] at hmem
  have hid2 := hdeclared id (List.mem_filter.mp hmem).1
  have hsubject := isSubjectOfDeclaration_declare ObjKind.Var DeclNode.ValueSpec id.Name
    (Or.inl rfl)
  rw [← hid2] at hsubject
  simp [isUsage, hsubject] at husage

/-! ## The scenarios of the specification -/

/-- C2, at its own witness: on the single file
`package p; var y = 1; func f() { return y + y }` the program ranks (y, 0),
since both operands carry the object of the declaration of `y` and
`isSubjectOfDeclaration` is true on them. -/
theorem scenario2_same_file_uses_not_counted :
    main.ranked scenario2.lib "dir" = .ok [{ variable_ := "y", count := 0 }]
    ∧ main scenario2.lib "dir" = .ok [["variable", "count"], ["y", "0"]]
    ∧ isSubjectOfDeclaration (parser.resolved (varObj "y")) = true :=
  ⟨rfl, rfl, rfl⟩

/-- C8, as stated, fails: on file A `var z = 0` and file B with three
statements `z = z + 1`, no output record for `z` has the count 3. -/
theorem scenario3_count_is_not_three :
    ¬ ∃ rs, main.ranked scenario3.lib "dir" = .ok rs
        ∧ ∃ r ∈ rs, r.variable_ = "z" ∧ r.count = 3 := by
  rintro ⟨rs, hrs, r, hr, _, hcount⟩
  have hrun : main.ranked scenario3.lib "dir" = .ok [{ variable_ := "z", count := 6 }] := rfl
  rw [hrun] at hrs
  simp only [Except.ok.injEq] at hrs
  subst hrs
  simp only [List.mem_singleton] at hr
  subst hr
  simp at hcount

/-- C8, amended: on file A `var z = 0` and file B with three statements
`z = z + 1` the output is the single record (z, 6): each statement holds two
identifier nodes named `z`, and the count of file B is 6, that of file A 0. -/
theorem scenario3_count_is_six :
    main.ranked scenario3.lib "dir" = .ok [{ variable_ := "z", count := 6 }]
    ∧ getCount scenario3.lib "dir/a.go" "z" = (0, none)
    ∧ getCount scenario3.lib "dir/b.go" "z" = (6, none)
    ∧ Inspect scenario3.stmt (getCount.visit "z") 0 = 2 :=
  ⟨rfl, rfl, rfl, rfl⟩

/-- C9, at a method declaration: on the file
`package p; var x = 1; type T int; func (t T) x() {}` the count of `x` is 1
and the program ranks (x, 1): the name of the method declaration carries no
object, `isSubjectOfDeclaration` is false on it and it is counted, whereas the
name of a function declaration `func x() {}` is classified as a declaration
subject, and the parameter, short variable and type declarations of `x` in
`func f(x int) {}; func g() { x := 2 }; func h() { type x int }` are not
counted. -/
theorem method_name_is_counted :
    getCount method.lib "dir/a.go" "x" = (1, none)
    ∧ main.ranked method.lib "dir" = .ok [{ variable_ := "x", count := 1 }]
    ∧ method.file.usages "x" = [parser.unresolved "x"]
    ∧ isSubjectOfDeclaration (parser.unresolved "x") = false
    ∧ isSubjectOfDeclaration (parser.declare ObjKind.Fun DeclNode.FuncDecl "x") = true
    ∧ getCount shadowing.lib "dir/a.go" "x" = (0, none) :=
  ⟨rfl, rfl, rfl, rfl, rfl, rfl⟩

/-- C10: when the pipeline succeeds, the parser marks the top-level `var`
names as declared, a file of the set declares the name as a top-level `var`
and in every file of the set the identifier nodes with this name are exactly
the declaring identifiers of its top-level `var` groups, then the output has a
record for the name and every record for the name has count 0. -/
theorem unreferenced_variable_count_zero (lib : Lib) (hperm : ∀ r, (lib.Sort_ r).Perm r)
    (hdeclared : ∀ file f, lib.ParseFile file = .ok f → f.VarsDeclared)
    (dir : String) (rs : recordSlice) (h : main.ranked lib dir = .ok rs)
    (files : List String) (hglob : lib.Glob (dir ++ "/**/*.go") = .ok files)
    (file : String) (hfile : file ∈ files) (f : File) (hparse : lib.ParseFile file = .ok f)
    (v : String) (hv : v ∈ f.globalVarNames)
    (hnowhere : ∀ file1 ∈ files, ∀ f1, lib.ParseFile file1 = .ok f1 →
      (f1.node.idents.filter fun id => decide (id.Name = v)).length
        = (f1.globalVarIdents.filter fun id => decide (id.Name = v)).length) :
    (∃ r ∈ rs, r.variable_ = v) ∧ ∀ r ∈ rs, r.variable_ = v → r.count = 0 := by
  obtain ⟨files1, trees, hglob1, htrees, _, hp⟩ := main.ranked_perm lib hperm dir rs h
  rw [hglob] at hglob1
  simp only [Except.ok.injEq] at hglob1
  subst hglob1
  have hzero : totalCount lib files v = 0 := by
    apply totalCount_eq_zero
    intro file1 hfile1
    cases hp1 : lib.ParseFile file1 with
    | error e => simp [getCount, hp1]
    | ok f1 =>
      rw [getCount_ok lib file1 v f1 hp1,
        File.usages_eq_nil f1 v (hdeclared file1 f1 hp1) (hnowhere file1 hfile1 f1 hp1)]
      rfl
  constructor
  · refine ⟨{ variable_ := v, count := totalCount lib files v }, ?_, rfl⟩
    apply hp.symm.subset
    apply List.mem_map.mpr
    refine ⟨v, ?_, rfl⟩
    exact List.mem_flatMap.mpr ⟨f, forall₂_parse_mem lib files trees htrees file hfile f hparse, hv⟩
  · intro r hr hname
    obtain ⟨v1, _, rfl⟩ := List.mem_map.mp (hp.subset hr)
    simp only at hname
    subst hname
    exact hzero

/-- C10, scenario 1: the single file `package p; var x = 1` yields the row
(x, 0). -/
theorem unreferenced_variable_count_zero_witness :
    main.ranked scenario1.lib "dir" = .ok [{ variable_ := "x", count := 0 }]
    ∧ (∃ r ∈ ([{ variable_ := "x", count := 0 }] : recordSlice), r.variable_ = "x")
    ∧ ∀ r ∈ ([{ variable_ := "x", count := 0 }] : recordSlice),
        r.variable_ = "x" → r.count = 0 := by
  have hfiles : ∀ file f, scenario1.lib.ParseFile file = .ok f →
      file = "dir/a.go" ∧ f = scenario1.file := by
    intro file f hf
    by_cases hfile : file = "dir/a.go"
    · subst hfile
      exact ⟨rfl, by simpa [scenario1.lib, libOf, List.lookup] using hf.symm⟩
    · have hbeq : (file == "dir/a.go") = false := by simpa using hfile
      simp [scenario1.lib, libOf, List.lookup, hbeq] at hf
  refine ⟨rfl, unreferenced_variable_count_zero scenario1.lib (libOf_sortOK _).perm ?_ "dir"
    [{ variable_ := "x", count := 0 }] rfl ["dir/a.go"] rfl "dir/a.go" (by simp)
    scenario1.file rfl "x" (by decide) ?_⟩
  · intro file f hf id hid
    obtain ⟨_, rfl⟩ := hfiles file f hf
    simp [File.globalVarIdents, scenario1.file, varDecl, Decl.varIdents, Spec.varIdents] at hid
    subst hid
    rfl
  · intro file1 _ f1 hf1
    obtain ⟨_, rfl⟩ := hfiles file1 f1 hf1
    rfl

/-! ## Success and failure of the loops -/

theorem findGlobalVariables.specs_eq (specs : List Spec) : ∀ variables_ : List String,
    findGlobalVariables.specs variables_ specs
      = if specs.all Spec.isValueSpec
        then .ok (variables_ ++ (specs.flatMap Spec.varIdents).map Ident.Name)
        else .error .typeAssertion := by
  induction specs with
  | nil => intro variables_; simp [findGlobalVariables.specs]
  | cons spec rest ih =>
    intro variables_
    cases spec with
    | ValueSpec vs =>
      rw [findGlobalVariables.specs, ih, findGlobalVariables.names_eq]
      simp [Spec.isValueSpec, Spec.varIdents]
    | ImportSpec s => simp [findGlobalVariables.specs, Spec.isValueSpec]
    | TypeSpec s => simp [findGlobalVariables.specs, Spec.isValueSpec]

theorem findGlobalVariables.decls_eq (decls : List Decl) : ∀ variables_ : List String,
    findGlobalVariables.decls variables_ decls
      = if decls.all Decl.assertsOK
        then .ok (variables_ ++ (decls.flatMap Decl.varIdents).map Ident.Name)
        else .error .typeAssertion := by
  induction decls with
  | nil => intro variables_; simp [findGlobalVariables.decls]
  | cons decl rest ih =>
    intro variables_
    cases decl with
    | BadDecl =>
      simp only [findGlobalVariables.decls]
      rw [ih]; simp [Decl.assertsOK, Decl.varIdents]
    | FuncDecl d =>
      simp only [findGlobalVariables.decls]
      rw [ih]; simp [Decl.assertsOK, Decl.varIdents]
    | GenDecl d =>
      rw [findGlobalVariables.decls]
      by_cases ht : d.Tok = Token.VAR
      · rw [if_pos ht, findGlobalVariables.specs_eq]
        by_cases hs : d.Specs.all Spec.isValueSpec = true
        · rw [if_pos hs]
          simp only []
          rw [ih]
          by_cases hr : rest.all Decl.assertsOK = true
          · simp [Decl.assertsOK, Decl.varIdents, ht, hs, hr]
          · simp [Decl.assertsOK, ht, hs, hr]
        · rw [if_neg hs]
          simp [Decl.assertsOK, ht, hs]
      · rw [if_neg ht, ih]
        simp [Decl.assertsOK, Decl.varIdents, ht]

theorem File.shape_iff (f : File) :
    f.VarSpecsAreValueSpecs ↔ f.Decls.all Decl.assertsOK = true := by
  unfold File.VarSpecsAreValueSpecs
  rw [List.all_eq_true]
  constructor
  · intro h decl hdecl
    cases decl with
    | BadDecl => rfl
    | FuncDecl d => rfl
    | GenDecl d =>
      by_cases ht : d.Tok = Token.VAR
      · simp only [Decl.assertsOK, if_pos ht, List.all_eq_true]
        intro s hs
        obtain ⟨vs, rfl⟩ := h d hdecl ht s hs
        rfl
      · simp [Decl.assertsOK, ht]
  · intro h d hd ht s hs
    have := h _ hd
    simp only [Decl.assertsOK, if_pos ht, List.all_eq_true] at this
    have hs2 := this s hs
    cases s with
    | ValueSpec vs => exact ⟨vs, rfl⟩
    | ImportSpec s => simp [Spec.isValueSpec] at hs2
    | TypeSpec s => simp [Spec.isValueSpec] at hs2

theorem findGlobalVariables_eq (lib : Lib) (variables_ : List String) (file : String) :
    findGlobalVariables lib variables_ file
      = match lib.ParseFile file with
        | .error err => .ok (variables_, some err)
        | .ok f =>
          if f.Decls.all Decl.assertsOK then .ok (variables_ ++ f.globalVarNames, none)
          else .error .typeAssertion := by
  unfold findGlobalVariables
  cases lib.ParseFile file with
  | error err => rfl
  | ok f =>
    simp only []
    rw [findGlobalVariables.decls_eq]
    by_cases h : f.Decls.all Decl.assertsOK = true
    · simp [h, File.globalVarNames, File.globalVarIdents]
    · simp [h]

theorem main.variables_of_reads (lib : Lib) (files : List String) :
    ∀ variables_ : List String, (∀ file ∈ files, lib.Reads file) →
      main.variables lib files variables_ = .ok (variables_ ++ declaredNames lib files) := by
  induction files with
  | nil => intro variables_ _; simp [main.variables, declaredNames]
  | cons file rest ih =>
    intro variables_ h
    obtain ⟨f, hf, hok⟩ := h file (List.mem_cons_self _ _)
    rw [main.variables, findGlobalVariables_eq, hf]
    simp only [hok, if_true]
    rw [ih _ (fun g hg => h g (List.mem_cons_of_mem _ hg))]
    simp [declaredNames, hf]

theorem main.variables_reads (lib : Lib) (files : List String) :
    ∀ variables_ out : List String, main.variables lib files variables_ = .ok out →
      ∀ file ∈ files, lib.Reads file := by
  induction files with
  | nil => intro _ _ _ file hfile; simp at hfile
  | cons file rest ih =>
    intro variables_ out h g hg
    rw [main.variables, findGlobalVariables_eq] at h
    cases hf : lib.ParseFile file with
    | error e => simp [hf] at h
    | ok f =>
      rw [hf] at h
      by_cases hok : f.Decls.all Decl.assertsOK = true
      · simp only [hok, if_true] at h
        rcases List.mem_cons.mp hg with rfl | hrest
        · exact ⟨f, hf, hok⟩
        · exact ih _ _ h g hrest
      · simp [hok] at h

theorem main.variables_parse_error (lib : Lib) (pre : List String) (file : String)
    (post : List String) (e : Error) (hfile : lib.ParseFile file = .error e) :
    ∀ variables_ : List String, (∀ g ∈ pre, lib.Reads g) →
      main.variables lib (pre ++ file :: post) variables_ = .error (.err e) := by
  induction pre with
  | nil =>
    intro variables_ _
    rw [List.nil_append, main.variables, findGlobalVariables_eq, hfile]
  | cons g rest ih =>
    intro variables_ h
    obtain ⟨f, hf, hok⟩ := h g (List.mem_cons_self _ _)
    rw [List.cons_append, main.variables, findGlobalVariables_eq, hf]
    simp only [hok, if_true]
    exact ih _ (fun g1 hg1 => h g1 (List.mem_cons_of_mem _ hg1))

theorem main.count_of_parses (lib : Lib) (v : String) (files : List String) :
    ∀ count : Int, (∀ file ∈ files, ∃ f, lib.ParseFile file = .ok f) →
      main.count lib v files count = .ok (count + totalCount lib files v) := by
  induction files with
  | nil => intro count _; simp [main.count, totalCount]
  | cons file rest ih =>
    intro count h
    obtain ⟨f, hf⟩ := h file (List.mem_cons_self _ _)
    rw [main.count, getCount_ok lib file v f hf]
    simp only []
    rw [ih _ (fun g hg => h g (List.mem_cons_of_mem _ hg))]
    simp [totalCount, getCount_ok lib file v f hf, add_assoc]

theorem main.records_of_parses (lib : Lib) (files : List String)
    (h : ∀ file ∈ files, ∃ f, lib.ParseFile file = .ok f) (variables_ : List String) :
    ∀ records : recordSlice,
      main.records lib files variables_ records
        = .ok (records ++ variables_.map fun v =>
            { variable_ := v, count := totalCount lib files v }) := by
  induction variables_ with
  | nil => intro records; simp [main.records]
  | cons v rest ih =>
    intro records
    rw [main.records, main.count_of_parses lib v files 0 h]
    simp only []
    rw [ih]
    simp

theorem main.ranked_of_reads (lib : Lib) (dir : String) (hdir : dir ≠ "")
    (files : List String) (hglob : lib.Glob (dir ++ "/**/*.go") = .ok files)
    (h : ∀ file ∈ files, lib.Reads file) :
    main.ranked lib dir
      = .ok (lib.Sort_ ((declaredNames lib files).map fun v =>
          { variable_ := v, count := totalCount lib files v })) := by
  have hparses : ∀ file ∈ files, ∃ f, lib.ParseFile file = .ok f :=
    fun file hfile => (h file hfile).imp fun _ hf => hf.1
  unfold main.ranked
  rw [if_neg hdir]
  simp only [findGoFiles, hglob]
  rw [main.variables_of_reads lib files [] h]
  simp only [List.nil_append]
  rw [main.records_of_parses lib files hparses]
  simp

theorem main.ranked_reads (lib : Lib) (dir : String) (rs : recordSlice)
    (h : main.ranked lib dir = .ok rs) :
    dir ≠ "" ∧ ∃ files, lib.Glob (dir ++ "/**/*.go") = .ok files
      ∧ ∀ file ∈ files, lib.Reads file := by
  obtain ⟨hdir, files, variables_, hglob, hvars, _⟩ := main.ranked_ok lib dir rs h
  exact ⟨hdir, files, hglob, main.variables_reads lib files [] variables_ hvars⟩

theorem Lib.reads_of_shape (lib : Lib)
    (hshape : ∀ file f, lib.ParseFile file = .ok f → f.VarSpecsAreValueSpecs)
    (file : String) (h : ∃ f, lib.ParseFile file = .ok f) : lib.Reads file := by
  obtain ⟨f, hf⟩ := h
  exact ⟨f, hf, (File.shape_iff f).mp (hshape file f hf)⟩

theorem main.ranked_parse_error (lib : Lib) (dir : String) (hdir : dir ≠ "")
    (files : List String) (hglob : lib.Glob (dir ++ "/**/*.go") = .ok files) (e : Error)
    (hvars : main.variables lib files [] = .error (.err e)) :
    main.ranked lib dir = .error (.err e) ∧ main lib dir = .error (.err e) := by
  have hranked : main.ranked lib dir = .error (.err e) := by
    unfold main.ranked
    rw [if_neg hdir]
    simp only [findGoFiles, hglob, hvars]
  exact ⟨hranked, by simp only [main, hranked]⟩

theorem main_ok_iff (lib : Lib) (dir : String) :
    (∃ table, main lib dir = .ok table) ↔ ∃ rs, main.ranked lib dir = .ok rs := by
  unfold main
  cases main.ranked lib dir with
  | error p => simp
  | ok rs => simp

theorem scenario1_parse (file : String) (f : File)
    (h : scenario1.lib.ParseFile file = .ok f) : f = scenario1.file := by
  by_cases hfile : file = "dir/a.go"
  · subst hfile
    simpa [scenario1.lib, libOf, List.lookup] using h.symm
  · have hbeq : (file == "dir/a.go") = false := by simpa using hfile
    simp [scenario1.lib, libOf, List.lookup, hbeq] at h

/-! ## Errors -/

/-- C11: with a non-empty `-dir`, a successful enumeration and a parser that
builds trees of its shape, the pipeline yields a ranking (and prints a table)
if and only if every file of the file set parses; when a file fails to parse
and the files before it parse, the first loop of `main` (the declaration
collection) panics with that file's error, and so do the ranking and `main`:
no record is produced and nothing is printed. -/
theorem ranking_iff_all_parse (lib : Lib)
    (hshape : ∀ file f, lib.ParseFile file = .ok f → f.VarSpecsAreValueSpecs)
    (dir : String) (hdir : dir ≠ "") (files : List String)
    (hglob : lib.Glob (dir ++ "/**/*.go") = .ok files) :
    ((∃ rs, main.ranked lib dir = .ok rs) ↔ ∀ file ∈ files, ∃ f, lib.ParseFile file = .ok f)
    ∧ ((∃ table, main lib dir = .ok table)
        ↔ ∀ file ∈ files, ∃ f, lib.ParseFile file = .ok f)
    ∧ ∀ (pre : List String) (file : String) (post : List String) (e : Error),
        files = pre ++ file :: post → (∀ g ∈ pre, ∃ f, lib.ParseFile g = .ok f) →
        lib.ParseFile file = .error e →
          main.variables lib files [] = .error (.err e)
          ∧ main.ranked lib dir = .error (.err e)
          ∧ main lib dir = .error (.err e) := by
  have hiff : (∃ rs, main.ranked lib dir = .ok rs)
      ↔ ∀ file ∈ files, ∃ f, lib.ParseFile file = .ok f := by
    constructor
    · rintro ⟨rs, hrs⟩ file hfile
      obtain ⟨_, files1, hglob1, hreads⟩ := main.ranked_reads lib dir rs hrs
      rw [hglob] at hglob1
      simp only [Except.ok.injEq] at hglob1
      subst hglob1
      exact (hreads file hfile).imp fun _ hf => hf.1
    · intro h
      exact ⟨_, main.ranked_of_reads lib dir hdir files hglob
        (fun file hfile => lib.reads_of_shape hshape file (h file hfile))⟩
  refine ⟨hiff, (main_ok_iff lib dir).trans hiff, ?_⟩
  intro pre file post e hsplit hpre hfile
  have hvars : main.variables lib files [] = .error (.err e) := by
    rw [hsplit]
    exact main.variables_parse_error lib pre file post e hfile []
      (fun g hg => lib.reads_of_shape hshape g (hpre g hg))
  exact ⟨hvars, main.ranked_parse_error lib dir hdir files hglob e hvars⟩

/-- C11, on a directory with the file of scenario 1 and a file that does not
parse: `main` panics with the parse error, although `dir/a.go` parses. -/
theorem ranking_iff_all_parse_witness :
    main broken.lib "dir" = .error (.err "no such file")
    ∧ ¬ ∃ rs, main.ranked broken.lib "dir" = .ok rs := by
  have h := ranking_iff_all_parse broken.lib
    (fun file f hf => by
      have := scenario1_parse file f hf
      subst this
      exact (File.shape_iff _).mpr rfl)
    "dir" (by decide) ["dir/a.go", "dir/bad.go"] rfl
  refine ⟨(h.2.2 ["dir/a.go"] "dir/bad.go" [] "no such file" rfl
    (fun g hg => by
      simp only [List.mem_singleton] at hg
      subst hg
      exact ⟨scenario1.file, rfl⟩) rfl).2.2, ?_⟩
  intro hex
  obtain ⟨f, hf⟩ := h.1.mp hex "dir/bad.go" (by simp)
  have hbad : broken.lib.ParseFile "dir/bad.go" = .error "no such file" := rfl
  rw [hbad] at hf
  cases hf

theorem Decl.assertsOK_of_not_var (d : Decl) (h : d.isVarGroup = false) :
    d.assertsOK = true ∧ d.varIdents = [] := by
  cases d with
  | BadDecl => exact ⟨rfl, rfl⟩
  | FuncDecl d => exact ⟨rfl, rfl⟩
  | GenDecl g =>
    have ht : ¬ g.Tok = Token.VAR := by simpa [Decl.isVarGroup] using h
    simp [Decl.assertsOK, Decl.varIdents, ht]

theorem File.no_var_group (f : File) (h : ∀ d ∈ f.Decls, d.isVarGroup = false) :
    f.Decls.all Decl.assertsOK = true ∧ f.globalVarNames = [] := by
  constructor
  · rw [List.all_eq_true]
    exact fun d hd => (Decl.assertsOK_of_not_var d (h d hd)).1
  · simp only [File.globalVarNames, File.globalVarIdents, List.map_eq_nil_iff,
      List.flatMap_eq_nil_iff]
    exact fun d hd => (Decl.assertsOK_of_not_var d (h d hd)).2

theorem declaredNames_eq_nil (lib : Lib) (files : List String)
    (h : ∀ file ∈ files, ∀ f, lib.ParseFile file = .ok f → f.globalVarNames = []) :
    declaredNames lib files = [] := by
  simp only [declaredNames, List.flatMap_eq_nil_iff]
  intro file hfile
  cases hf : lib.ParseFile file with
  | error e => rfl
  | ok f => exact h file hfile f hf

/-- C12: with a non-empty `-dir`, when the enumeration succeeds, every file of
the set parses and no file holds a top-level `var` group (the empty file set
included), the collected name sequence is empty, the ranking is empty, and
`main` prints the table that consists of the header row alone, without
panic. -/
theorem no_globals_header_only (lib : Lib) (hperm : ∀ r, (lib.Sort_ r).Perm r)
    (dir : String) (hdir : dir ≠ "") (files : List String)
    (hglob : lib.Glob (dir ++ "/**/*.go") = .ok files)
    (hfiles : ∀ file ∈ files, ∃ f, lib.ParseFile file = .ok f
      ∧ ∀ d ∈ f.Decls, d.isVarGroup = false) :
    main.variables lib files [] = .ok []
    ∧ main.ranked lib dir = .ok []
    ∧ main lib dir = .ok [["variable", "count"]] := by
  have hreads : ∀ file ∈ files, lib.Reads file := by
    intro file hfile
    obtain ⟨f, hf, hd⟩ := hfiles file hfile
    exact ⟨f, hf, (File.no_var_group f hd).1⟩
  have hnames : declaredNames lib files = [] := by
    apply declaredNames_eq_nil
    intro file hfile f hf
    obtain ⟨f1, hf1, hd⟩ := hfiles file hfile
    rw [hf] at hf1
    simp only [Except.ok.injEq] at hf1
    subst hf1
    exact (File.no_var_group f hd).2
  have hvars := main.variables_of_reads lib files [] hreads
  have hranked := main.ranked_of_reads lib dir hdir files hglob hreads
  rw [hnames] at hvars hranked
  simp only [List.map_nil, (hperm []).eq_nil] at hranked
  exact ⟨hvars, hranked, by simp only [main, hranked]; rfl⟩

/-- C12, on a directory without `.go` files and on a directory whose only file
is `package p; func f() {}`. -/
theorem no_globals_header_only_witness :
    main empty.lib "dir" = .ok [["variable", "count"]]
    ∧ main funcOnly.lib "dir" = .ok [["variable", "count"]] :=
  ⟨(no_globals_header_only empty.lib (libOf_sortOK _).perm "dir" (by decide) [] rfl
      (fun _ h => by simp at h)).2.2,
   (no_globals_header_only funcOnly.lib (libOf_sortOK _).perm "dir" (by decide) ["dir/a.go"] rfl
      (fun file h => by
        simp only [List.mem_singleton] at h
        subst h
        refine ⟨funcOnly.file, rfl, ?_⟩
        intro d hd
        simp only [funcOnly.file, List.mem_singleton] at hd
        subst hd
        rfl)).2.2⟩

/-- C13: with an empty `-dir`, `main` panics with the usage message whatever
the libraries would return: neither the enumeration nor the parser nor the
sort has a part in the result, and no table is printed. -/
theorem main_without_dir (lib : Lib) :
    main.ranked lib "" = .error (.str "Input -dir")
    ∧ main lib "" = .error (.str "Input -dir")
    ∧ ∀ lib1 : Lib, main lib1 "" = main lib "" := by
  have h : ∀ l : Lib, main l "" = .error (.str "Input -dir") := by
    intro l
    simp [main, main.ranked]
  exact ⟨by simp [main.ranked], h lib, fun lib1 => (h lib1).trans (h lib).symm⟩

/-! ## Repeated names and the order of the files -/

theorem main.ranked_counts (lib : Lib) (hperm : ∀ r, (lib.Sort_ r).Perm r) (dir : String)
    (rs : recordSlice) (h : main.ranked lib dir = .ok rs) :
    ∃ files, lib.Glob (dir ++ "/**/*.go") = .ok files
      ∧ ∀ r ∈ rs, r.count = totalCount lib files r.variable_ := by
  obtain ⟨files, trees, hglob, _, _, hp⟩ := main.ranked_perm lib hperm dir rs h
  refine ⟨files, hglob, ?_⟩
  intro r hr
  obtain ⟨v, _, rfl⟩ := List.mem_map.mp (hp.subset hr)
  rfl

/-- C14: when the pipeline succeeds, the count of every output record is the
sum over the whole file set of the counts of its name, so two records with the
same variable name have the same count. -/
theorem same_name_same_count (lib : Lib) (hperm : ∀ r, (lib.Sort_ r).Perm r) (dir : String)
    (rs : recordSlice) (h : main.ranked lib dir = .ok rs) :
    (∃ files, lib.Glob (dir ++ "/**/*.go") = .ok files
      ∧ ∀ r ∈ rs, r.count = (files.map fun file => (getCount lib file r.variable_).1).sum)
    ∧ ∀ r1 ∈ rs, ∀ r2 ∈ rs, r1.variable_ = r2.variable_ → r1.count = r2.count := by
  obtain ⟨files, hglob, hcount⟩ := main.ranked_counts lib hperm dir rs h
  refine ⟨⟨files, hglob, hcount⟩, ?_⟩
  intro r1 hr1 r2 hr2 hname
  rw [hcount r1 hr1, hcount r2 hr2, hname]

/-- C14, on two files that each declare `var z = 0` and a third that uses `z`
six times: both rows are (z, 6). -/
theorem same_name_same_count_witness :
    main.ranked collision.lib "dir"
        = .ok [{ variable_ := "z", count := 6 }, { variable_ := "z", count := 6 }]
    ∧ ∀ r1 ∈ ([{ variable_ := "z", count := 6 }, { variable_ := "z", count := 6 }] : recordSlice),
        ∀ r2 ∈ ([{ variable_ := "z", count := 6 }, { variable_ := "z", count := 6 }] : recordSlice),
          r1.variable_ = r2.variable_ → r1.count = r2.count :=
  ⟨rfl, (same_name_same_count collision.lib (libOf_sortOK _).perm "dir" _ rfl).2⟩

theorem totalCount_perm (lib : Lib) (files files1 : List String) (h : files.Perm files1)
    (v : String) : totalCount lib files1 v = totalCount lib files v := by
  unfold totalCount
  exact ((h.map fun file => (getCount lib file v).1).sum_eq).symm

/-- C15: when the enumeration returns the files in another order, every
name's total count over the file set is the same, and if the pipeline
succeeds on the one order it succeeds on the other with a permutation of the
same records. -/
theorem file_order_irrelevant (lib : Lib) (hperm : ∀ r, (lib.Sort_ r).Perm r) (dir : String)
    (files files1 : List String) (hglob : lib.Glob (dir ++ "/**/*.go") = .ok files)
    (hfiles : files.Perm files1) :
    (∀ v, totalCount (lib.withFiles files1) files1 v = totalCount lib files v)
    ∧ ∀ rs, main.ranked lib dir = .ok rs →
        ∃ rs1, main.ranked (lib.withFiles files1) dir = .ok rs1 ∧ rs1.Perm rs := by
  have hcount : ∀ v, totalCount (lib.withFiles files1) files1 v = totalCount lib files v :=
    fun v => totalCount_perm lib files files1 hfiles v
  refine ⟨hcount, ?_⟩
  intro rs hrs
  obtain ⟨hdir, files0, hglob0, hreads⟩ := main.ranked_reads lib dir rs hrs
  rw [hglob] at hglob0
  simp only [Except.ok.injEq] at hglob0
  subst hglob0
  have hreads1 : ∀ file ∈ files1, (lib.withFiles files1).Reads file :=
    fun file hfile => hreads file (hfiles.mem_iff.mpr hfile)
  have h1 := main.ranked_of_reads (lib.withFiles files1) dir hdir files1 rfl hreads1
  have h0 := main.ranked_of_reads lib dir hdir files hglob hreads
  rw [hrs] at h0
  simp only [Except.ok.injEq] at h0
  refine ⟨_, h1, ?_⟩
  rw [h0]
  have hfun : (fun v => ({ variable_ := v, count := totalCount (lib.withFiles files1) files1 v }
      : record)) = fun v => { variable_ := v, count := totalCount lib files v } := by
    funext v
    rw [hcount v]
  rw [hfun]
  have hnames : (declaredNames (lib.withFiles files1) files1).Perm (declaredNames lib files) :=
    (List.Perm.flatMap_right _ hfiles).symm
  exact ((hperm _).trans (hnames.map _)).trans (hperm _).symm

/-- C15, on the file set `var w = 0; var z = 0` and a file using `z` six
times, enumerated as a.go, b.go and as b.go, a.go. -/
theorem file_order_irrelevant_witness :
    main.ranked ranking.swapped "dir"
        = .ok [{ variable_ := "z", count := 6 }, { variable_ := "w", count := 0 }]
    ∧ (∀ v, totalCount ranking.swapped ["dir/b.go", "dir/a.go"] v
        = totalCount ranking.lib ["dir/a.go", "dir/b.go"] v)
    ∧ ∀ rs, main.ranked ranking.lib "dir" = .ok rs →
        ∃ rs1, main.ranked ranking.swapped "dir" = .ok rs1 ∧ rs1.Perm rs :=
  ⟨rfl, file_order_irrelevant ranking.lib (libOf_sortOK _).perm "dir"
    ["dir/a.go", "dir/b.go"] ["dir/b.go", "dir/a.go"] rfl (List.Perm.swap _ _ _)⟩

/-! ## The type assertion and the parse failure in the helpers -/

/-- C16: on a file that parses to a tree in which every `GenDecl` with token
`VAR` holds only `ValueSpec` entries, `findGlobalVariables` does not panic and
returns a nil error; the failed type assertion is reached exactly on the
trees that are not of this shape. -/
theorem type_assertion_never_fails (lib : Lib) (variables_ : List String) (file : String)
    (f : File) (hparse : lib.ParseFile file = .ok f) :
    (f.VarSpecsAreValueSpecs →
      (∃ out, findGlobalVariables lib variables_ file = .ok (out, none))
      ∧ ∀ p, findGlobalVariables lib variables_ file ≠ .error p)
    ∧ (findGlobalVariables lib variables_ file = .error .typeAssertion
        ↔ ¬ f.VarSpecsAreValueSpecs) := by
  have heq := findGlobalVariables_eq lib variables_ file
  rw [hparse] at heq
  simp only [] at heq
  constructor
  · intro hshape
    have hok := (File.shape_iff f).mp hshape
    rw [if_pos hok] at heq
    exact ⟨⟨_, heq⟩, fun p hp => by rw [heq] at hp; cases hp⟩
  · rw [File.shape_iff]
    by_cases hok : f.Decls.all Decl.assertsOK = true
    · rw [if_pos hok] at heq
      simp [heq, hok]
    · rw [if_neg hok] at heq
      simp [heq, hok]

/-- C16, on the file of scenario 2, and on a tree with an import spec in a
`var` group, where the assertion fails. -/
theorem type_assertion_never_fails_witness :
    ((∃ out, findGlobalVariables scenario2.lib [] "dir/a.go" = .ok (out, none))
      ∧ ∀ p, findGlobalVariables scenario2.lib [] "dir/a.go" ≠ .error p)
    ∧ findGlobalVariables (libOf [("dir/a.go", illShaped.file)]) [] "dir/a.go"
        = .error .typeAssertion :=
  ⟨(type_assertion_never_fails scenario2.lib [] "dir/a.go" scenario2.file rfl).1
      ((File.shape_iff _).mpr rfl),
   rfl⟩

/-- C17: when the file does not parse, `findGlobalVariables` returns its input
list unchanged together with the error, and `getCount` returns the count 0
together with the error. -/
theorem parse_failure_neutral (lib : Lib) (variables_ : List String)
    (file variable_ : String) (e : Error) (hparse : lib.ParseFile file = .error e) :
    findGlobalVariables lib variables_ file = .ok (variables_, some e)
    ∧ getCount lib file variable_ = (0, some e) := by
  constructor
  · simp only [findGlobalVariables, hparse]
  · simp only [getCount, hparse]

/-- C17, on the file `dir/bad.go` that does not parse. -/
theorem parse_failure_neutral_witness :
    findGlobalVariables broken.lib ["a", "b"] "dir/bad.go"
        = .ok (["a", "b"], some "no such file")
    ∧ getCount broken.lib "dir/bad.go" "x" = (0, some "no such file") :=
  parse_failure_neutral broken.lib ["a", "b"] "dir/bad.go" "x" "no such file" rfl

end GoGlobalVarFinder
